import Mathlib

/-!
# Verification development for `fbpcf`

Two parts of the repository are embedded here.

* `private_lift::LiftCalculator` (`lift/calculator/test/common/LiftCalculator.cpp`):
  `mapColToIndex`, `parseArray` and `compute`, translated from the C++ source.
  A `std::string` is a `List Char`; a `std::unordered_map<std::string, int32_t>` is an
  association list with replace-on-assign; a call that ends in `LOG(FATAL)` or in an
  exception (`at`, `substr`) is `none`.
* `fbpcf::mpc_std_lib::oram::IOramEncoder`
  (`fbpcf/mpc_std_lib/oram/encoder/IOramEncoder.h`): the header only declares the two
  pure virtual operations, so the encoder behind them is modelled from the
  specification (namespace `fbpcf.mpc_std_lib.oram`).
-/

namespace private_lift

/-- A `std::string`, as its sequence of characters. -/
abbrev Str := List Char

/-- A `std::unordered_map<std::string, int32_t>`: at most one pair per key. -/
abbrev ColMap := List (Str × Int)

/-- The call `m.find(key)` followed by reading the mapped value; `none` is `m.end()`. -/
def ColMap.find (key : Str) : ColMap → Option Int
  | [] => none
  | (k, v) :: rest => if k = key then some v else ColMap.find key rest

/-- The assignment `m[key] = value`: overwrite the mapped value when the key is present,
insert otherwise. -/
def ColMap.assign (key : Str) (value : Int) : ColMap → ColMap
  | [] => [(key, value)]
  | (k, v) :: rest =>
    if k = key then (k, value) :: rest else (k, v) :: ColMap.assign key value rest

/-- Narrowing of a `std::distance` result to `int32_t` (two's complement). -/
def toInt32 (n : Nat) : Int :=
  if n % 2 ^ 32 < 2 ^ 31 then ((n % 2 ^ 32 : Nat) : Int)
  else ((n % 2 ^ 32 : Nat) : Int) - 2 ^ 32

/-- One `for` loop of `mapColToIndex`: `it` runs over `header`, `pos` is
`std::distance(header.begin(), it)`. -/
def assignPositions : List Str → Nat → ColMap → ColMap
  | [], _, colNameToIndex => colNameToIndex
  | name :: rest, pos, colNameToIndex =>
    assignPositions rest (pos + 1) (ColMap.assign name (toInt32 pos) colNameToIndex)

/-- The function `LiftCalculator::mapColToIndex`. -/
def mapColToIndex (headerPublisher headerPartner : List Str) : ColMap :=
  assignPositions headerPartner 0 (assignPositions headerPublisher 0 [])

/-! ### Stream extraction -/

/-- The predicate `std::isspace` in the classic locale, skipped by the stream sentry. -/
def isSpace (c : Char) : Bool :=
  c = ' ' || c.toNat = 9 || c.toNat = 10 || c.toNat = 11 || c.toNat = 12 || c.toNat = 13

/-- Value of a run of decimal digits, most significant first. -/
def decimalValue (digits : List Char) : Nat :=
  digits.foldl (fun acc c => 10 * acc + (c.toNat - 48)) 0

/-- Optional sign in front of the digits: whether it is `-`, and what follows it. -/
def takeSign : List Char → Bool × List Char
  | '-' :: rest => (true, rest)
  | '+' :: rest => (false, rest)
  | s => (false, s)

/-- The extraction `std::istringstream iss(s); iss >> parsed;` for `int64_t parsed`: leading
white space is skipped, an optional sign and then the longest run of decimal digits are
consumed, whatever follows is left in the stream. `none` is `iss.fail()`: no digit, or a
value outside `int64_t`. -/
def extractInt64 (s : Str) : Option Int :=
  let signed := takeSign (s.dropWhile isSpace)
  let digits := signed.2.takeWhile Char.isDigit
  if digits = [] then none
  else if signed.1 then
    (if decimalValue digits ≤ 2 ^ 63 then some (-(decimalValue digits : Int)) else none)
  else
    (if decimalValue digits < 2 ^ 63 then some (decimalValue digits : Int) else none)

/-- The extraction `iss >> x` for `uint64_t x`: as `extractInt64`, but the magnitude may be
any 64-bit value and a leading `-` negates it modulo `2 ^ 64`. -/
def extractUInt64 (s : Str) : Option Nat :=
  let signed := takeSign (s.dropWhile isSpace)
  let digits := signed.2.takeWhile Char.isDigit
  if digits = [] then none
  else if decimalValue digits < 2 ^ 64 then
    some (if signed.1 then (2 ^ 64 - decimalValue digits) % 2 ^ 64 else decimalValue digits)
  else none

/-- Conversion `int64_t → uint64_t` done by `out.push_back(parsed)`. -/
def toUInt64 (z : Int) : Nat := (z % 2 ^ 64).toNat

/-- The `for` loop of `parseArray` over the split cells, `none` being the `LOG(FATAL)` of a
failed extraction. The cells are visited in order; the `int` counter of the source is not
represented. -/
def parseCells : List Str → Option (List Nat)
  | [] => some []
  | cell :: rest =>
    match extractInt64 cell with
    | none => none
    | some parsed =>
      match parseCells rest with
      | none => none
      | some out => some (toUInt64 parsed :: out)

/-- The function `LiftCalculator::parseArray`. `csv::splitByComma` is declared in `Csv.h`,
outside the two files embedded here, and is taken as the parameter `splitByComma`.
`array.substr(1, array.size() - 1)` throws on the empty string and otherwise keeps
everything after the first character, the closing bracket included. -/
def parseArray (splitByComma : Str → Bool → List Str) (array : Str) : Option (List Nat) :=
  if array.length < 1 then none
  else parseCells (splitByComma ((array.drop 1).take (array.length - 1)) false)

/-! ### `compute` -/

/-- The record `OutputMetricsData` (declared in `OutputMetricsData.h`, outside the two files
embedded here) with the fields `compute` writes. The population, event, converter and match counters are
natural numbers: each is incremented at most once per row or per event read. The value and
squared-value fields hold the 64-bit pattern of the accumulation, which the source carries
out on `uint64_t value_subsum`. `log` is floating point and is not evaluated:
`testLogValue` and `controlLogValue` record, oldest first, the `value_subsum` of every row
whose term `value_subsum > 0 ? log(value_subsum) : 0` has been added. -/
structure OutputMetricsData where
  testPopulation : Nat
  controlPopulation : Nat
  testEvents : Nat
  controlEvents : Nat
  testConverters : Nat
  controlConverters : Nat
  testValue : Nat
  controlValue : Nat
  testSquared : Nat
  controlSquared : Nat
  testMatchCount : Nat
  controlMatchCount : Nat
  testLogValue : List Nat
  controlLogValue : List Nat
  deriving DecidableEq

/-- The metrics after the block "Initialize field values from OutputMetricsData". -/
def OutputMetricsData.init : OutputMetricsData :=
  ⟨0, 0, 0, 0, 0, 0, 0, 0, 0, 0, 0, 0, [], []⟩

/-- The locals of one iteration of the `while` loop once both lines are parsed. `valuesIdx`
is `-1` when `colNameToIndex` has no `values` key, and then `values` is never assigned. -/
structure Row where
  opportunity : Nat
  testFlag : Nat
  opportunityTimestamp : Nat
  eventTimestamps : List Nat
  valuesIdx : Int
  values : List Nat
  deriving DecidableEq

/-- The access `parts.at(idx)` for an `int32_t idx`: a negative index converts to a huge
`size_t` and throws like any other index past the end. -/
def atIdx (parts : List Str) (idx : Int) : Option Str :=
  if idx < 0 then none else parts[idx.toNat]?

/-- The access `parts.at(colNameToIndex.at(name))`; `colNameToIndex.at` throws on a missing
key. -/
def cellOf (colNameToIndex : ColMap) (parts : List Str) (name : String) : Option Str :=
  match ColMap.find name.toList colNameToIndex with
  | none => none
  | some idx => atIdx parts idx

/-- The `values` part of an iteration (source lines 131-141). -/
def readValues (splitByComma : Str → Bool → List Str) (partsPartner : List Str)
    (eventTimestamps : List Nat) (valuesIdx : Int) : Option (List Nat) :=
  if valuesIdx ≠ -1 then
    match atIdx partsPartner valuesIdx with
    | none => none
    | some cell =>
      match parseArray splitByComma cell with
      | none => none
      | some values => if eventTimestamps.length ≠ values.length then none else some values
  else some []

/-- The parsing half of one iteration of the `while` loop (source lines 89-141). -/
def parseRow (splitByComma : Str → Bool → List Str) (colNameToIndex : ColMap)
    (linePublisher linePartner : Str) : Option Row :=
  let partsPublisher := splitByComma linePublisher true
  let partsPartner := splitByComma linePartner true
  if partsPublisher = [] then none
  else
    let opportunity : Option Nat :=
      match ColMap.find "opportunity".toList colNameToIndex with
      | some idx => (atIdx partsPublisher idx).bind extractUInt64
      | none => some 1
    match opportunity with
    | none => none
    | some opportunity =>
      match (cellOf colNameToIndex partsPublisher "test_flag").bind extractUInt64 with
      | none => none
      | some testFlag =>
        match (cellOf colNameToIndex partsPublisher "opportunity_timestamp").bind
            extractUInt64 with
        | none => none
        | some opportunityTimestamp =>
          if partsPartner = [] then none
          else
            match (cellOf colNameToIndex partsPartner "event_timestamps").bind
                (parseArray splitByComma) with
            | none => none
            | some eventTimestamps =>
              let valuesIdx : Int :=
                match ColMap.find "values".toList colNameToIndex with
                | some idx => idx
                | none => -1
              match readValues splitByComma partsPartner eventTimestamps valuesIdx with
              | none => none
              | some values =>
                some ⟨opportunity, testFlag, opportunityTimestamp, eventTimestamps,
                  valuesIdx, values⟩

/-- The sum `eventTimestamps.at(i) + tsOffset`: the `int32_t` offset is converted to
`uint64_t` and the sum wraps modulo `2 ^ 64`. -/
def offsetTimestamp (eventTimestamp : Nat) (tsOffset : Int) : Nat :=
  (eventTimestamp + toUInt64 tsOffset) % 2 ^ 64

/-- What the inner `for` loop over the events updates: three counters of the output (the
test ones or the control ones) and the three locals of the row. -/
structure Tally where
  matchCount : Nat
  converters : Nat
  events : Nat
  value_subsum : Nat
  converted : Bool
  countedMatchAlready : Bool
  deriving DecidableEq

/-- The body of the inner `for` loop (source lines 150-167, and again 175-192 with the
control counters) for the event at `eventTimestamp`, `value` being `values.at(i)`. -/
def scanStep (valuesIdx tsOffset : Int) (opportunityTimestamp eventTimestamp value : Nat)
    (t : Tally) : Tally :=
  let t1 : Tally :=
    if 0 < opportunityTimestamp ∧ 0 < eventTimestamp ∧ t.countedMatchAlready = false then
      { t with matchCount := t.matchCount + 1, countedMatchAlready := true }
    else t
  if opportunityTimestamp < offsetTimestamp eventTimestamp tsOffset then
    { t1 with
      converters := if t1.converted = false then t1.converters + 1 else t1.converters
      events := t1.events + 1
      converted := true
      value_subsum :=
        if valuesIdx ≠ -1 then (t1.value_subsum + value) % 2 ^ 64 else t1.value_subsum }
  else t1

/-- The inner `for` loop. The first list is what is left of `eventTimestamps`, the second
what is left of `values`: `values.at(i)` is its head, the two vectors having the same size
whenever `valuesIdx != -1` (and `values.at(i)` is not evaluated otherwise). -/
def scanEvents (valuesIdx tsOffset : Int) (opportunityTimestamp : Nat) :
    List Nat → List Nat → Tally → Tally
  | [], _, t => t
  | eventTimestamp :: events, values, t =>
    scanEvents valuesIdx tsOffset opportunityTimestamp events values.tail
      (scanStep valuesIdx tsOffset opportunityTimestamp eventTimestamp (values.headD 0) t)

/-- The accumulating half of one iteration (source lines 142-198). -/
def accumulate (tsOffset : Int) (out : OutputMetricsData) (row : Row) : OutputMetricsData :=
  if row.opportunity ≠ 0 ∧ 0 < row.opportunityTimestamp then
    if row.testFlag ≠ 0 then
      let t := scanEvents row.valuesIdx tsOffset row.opportunityTimestamp row.eventTimestamps
        row.values ⟨out.testMatchCount, out.testConverters, out.testEvents, 0, false, false⟩
      { out with
        testPopulation := out.testPopulation + 1
        testMatchCount := t.matchCount
        testConverters := t.converters
        testEvents := t.events
        testValue := (out.testValue + t.value_subsum) % 2 ^ 64
        testLogValue := out.testLogValue ++ [t.value_subsum]
        testSquared := (out.testSquared + t.value_subsum * t.value_subsum % 2 ^ 64) % 2 ^ 64 }
    else
      let t := scanEvents row.valuesIdx tsOffset row.opportunityTimestamp row.eventTimestamps
        row.values
        ⟨out.controlMatchCount, out.controlConverters, out.controlEvents, 0, false, false⟩
      { out with
        controlPopulation := out.controlPopulation + 1
        controlMatchCount := t.matchCount
        controlConverters := t.converters
        controlEvents := t.events
        controlValue := (out.controlValue + t.value_subsum) % 2 ^ 64
        controlLogValue := out.controlLogValue ++ [t.value_subsum]
        controlSquared :=
          (out.controlSquared + t.value_subsum * t.value_subsum % 2 ^ 64) % 2 ^ 64 }
  else out

/-- The `while` loop of `compute`: the two streams are the lines `getline` still has to
deliver, and the loop ends as soon as either stream is exhausted. -/
def computeLoop (splitByComma : Str → Bool → List Str) (colNameToIndex : ColMap)
    (tsOffset : Int) : List Str → List Str → OutputMetricsData → Option OutputMetricsData
  | linePublisher :: restPublisher, linePartner :: restPartner, out =>
    match parseRow splitByComma colNameToIndex linePublisher linePartner with
    | none => none
    | some row =>
      computeLoop splitByComma colNameToIndex tsOffset restPublisher restPartner
        (accumulate tsOffset out row)
  | _, _, out => some out

/-- The function `LiftCalculator::compute`. -/
def compute (splitByComma : Str → Bool → List Str) (inFilePublisher inFilePartner : List Str)
    (colNameToIndex : ColMap) (tsOffset : Int) : Option OutputMetricsData :=
  computeLoop splitByComma colNameToIndex tsOffset inFilePublisher inFilePartner
    OutputMetricsData.init

/-- The row pairs read by `compute`, in order; `none` when some pair does not parse. -/
def readRows (splitByComma : Str → Bool → List Str) (colNameToIndex : ColMap) :
    List Str → List Str → Option (List Row)
  | linePublisher :: restPublisher, linePartner :: restPartner =>
    match parseRow splitByComma colNameToIndex linePublisher linePartner with
    | none => none
    | some row =>
      match readRows splitByComma colNameToIndex restPublisher restPartner with
      | none => none
      | some rows => some (row :: rows)
  | _, _ => some []

/-- The row is counted: `opportunity && opportunityTimestamp > 0`. -/
def Row.counted (row : Row) : Bool :=
  decide (row.opportunity ≠ 0) && decide (0 < row.opportunityTimestamp)

/-- The row is counted in the test population. -/
def Row.isTest (row : Row) : Bool := row.counted && decide (row.testFlag ≠ 0)

/-- The row is counted in the control population. -/
def Row.isControl (row : Row) : Bool := row.counted && decide (row.testFlag = 0)

/-- Number of events `i` of the row with
`opportunityTimestamp < eventTimestamps[i] + tsOffset` in unsigned 64-bit arithmetic. -/
def Row.conversions (tsOffset : Int) (row : Row) : Nat :=
  (row.eventTimestamps.filter
    (fun ev => decide (row.opportunityTimestamp < offsetTimestamp ev tsOffset))).length

/-! ### An instance of the splitting routine -/

/-- Comma splitting with an accumulator: `cur` is the cell being read, `inside` tells
whether an opening bracket is pending. Empty cells are dropped. -/
def splitCells (supportInnerBrackets : Bool) : List Char → Bool → List Char → List Str
  | cur, _, [] => if cur = [] then [] else [cur]
  | cur, inside, c :: cs =>
    if c = ',' ∧ inside = false then
      (if cur = [] then splitCells supportInnerBrackets [] false cs
       else cur :: splitCells supportInnerBrackets [] false cs)
    else
      splitCells supportInnerBrackets (cur ++ [c])
        (supportInnerBrackets && (if c = '[' then true else if c = ']' then false else inside))
        cs

/-- One routine that can stand for `csv::splitByComma`, used to run the definitions on
concrete lines: cells are separated by commas, and with `supportInnerBrackets` the commas
between a `[` and the next `]` do not separate. -/
def commaSplit (str : Str) (supportInnerBrackets : Bool) : List Str :=
  splitCells supportInnerBrackets [] false str

/-! ### The input format of `parseArray` -/

/-- Cells joined by single commas. -/
def joinCells : List Str → Str
  | [] => []
  | [cell] => cell
  | cell :: rest => cell ++ ',' :: joinCells rest

/-- The string `[v1,v2,...,vn]`: the decimal numerals of the values, separated by commas and
enclosed in one pair of square brackets. -/
def renderArray (vs : List Nat) : Str :=
  '[' :: joinCells (vs.map (Nat.toDigits 10)) ++ [']']

/-- What `parseArray` relies on from `csv::splitByComma(str, false)`: a string made of
non-empty cells of decimal digits and closing brackets, joined by commas, is split back into
these cells. -/
def SplitsOnComma (splitByComma : Str → Bool → List Str) : Prop :=
  ∀ cells : List Str, cells ≠ [] →
    (∀ cell ∈ cells, cell ≠ [] ∧ ∀ c ∈ cell, c.isDigit = true ∨ c = ']') →
    splitByComma (joinCells cells) false = cells

/-- The cells with `suffix` appended to the last one. -/
def appendToLast (suffix : Str) : List Str → List Str
  | [] => []
  | [cell] => [cell ++ suffix]
  | cell :: rest => cell :: appendToLast suffix rest

/-! ### Sample input -/

/-- Column map of a publisher header `id_,opportunity,test_flag,opportunity_timestamp` and a
partner header `id_,event_timestamps,values`. -/
def sampleColumns : ColMap :=
  mapColToIndex
    ["id_".toList, "opportunity".toList, "test_flag".toList, "opportunity_timestamp".toList]
    ["id_".toList, "event_timestamps".toList, "values".toList]

/-- Column map of the same headers without the `values` column. -/
def sampleColumnsValueless : ColMap :=
  mapColToIndex
    ["id_".toList, "opportunity".toList, "test_flag".toList, "opportunity_timestamp".toList]
    ["id_".toList, "event_timestamps".toList]

/-- Publisher lines: a test row, a control row, a row without opportunity. -/
def samplePublisher : List Str :=
  ["a,1,1,100".toList, "b,1,0,100".toList, "c,0,1,100".toList]

/-- Partner lines matching `samplePublisher`. -/
def samplePartner : List Str :=
  ["a,[50,150,200],[1,2,3]".toList, "b,[150,0],[7,8]".toList, "c,[150],[9]".toList]

/-- Partner lines matching `samplePublisher` when there is no `values` column. -/
def samplePartnerValueless : List Str :=
  ["a,[50,150,200]".toList, "b,[150,0]".toList, "c,[150]".toList]

end private_lift

namespace fbpcf.mpc_std_lib.oram

/-!
## The ORAM encoder

`IOramEncoder.h` declares `generateORAMIndexes` and `exportMappingConfig` as pure virtual
and defines `OramMappingConfig` as a class without data members; no class implementing the
two operations is part of the header. `OramMappingConfig` is taken from the header, the
encoder behind the two operations follows the specification, sections 3, 4 and 7.
-/

/-- Modelled from the spec: the `BreakdownTuple` of section 3, an "immutable ordered sequence
of unsigned 32-bit values, one per reporting dimension" (the argument type
`std::vector<uint32_t>` of `IOramEncoder::generateORAMIndexes`; no implementation of the
interface is available). The values are kept as natural numbers. -/
abbrev BreakdownTuple := List Nat

/-- Modelled from the spec: the `CanonicalKey` of section 3, "a deterministic,
order-sensitive derivation of a BreakdownTuple used for equality/hashing; equal tuples ⇒
equal keys, unequal tuples ⇒ (expected) unequal keys" (the key derivation of the missing
encoder implementation). -/
abbrev CanonicalKey := List Nat

/-- Modelled from the spec: the derivation of the `CanonicalKey` of a tuple (part of the
missing encoder implementation). The specification fixes only that equal tuples have equal
keys and unequal tuples unequal keys; the sequence of the values itself is taken as key. -/
def canonicalKey (t : BreakdownTuple) : CanonicalKey := t

/-- Modelled from the spec: the error kinds of section 7 (raised by the missing encoder
implementation). -/
inductive EncoderError where
  | ArityMismatch
  | CapacityExceeded
  deriving DecidableEq

deriving instance DecidableEq for Except

/-- Modelled from the spec: the largest `OramIndex` of section 3, an "unsigned 32-bit value"
(the return type `std::vector<uint32_t>` of the interface; the bound is enforced by the
missing implementation). -/
def maxOramIndex : Nat := 2 ^ 32 - 1

/-- Modelled from the spec: the `MappingTable` of sections 3 and 4.2 (state of the missing
encoder implementation): the assignments accumulated so far, oldest first, and the "counter
starting at 1, incremented only on successful insertion". -/
structure MappingTable where
  entries : List (CanonicalKey × Nat)
  counter : Nat
  deriving DecidableEq

/-- Modelled from the spec: the stored index of a key in the `MappingTable` of section 4.2
(part of the missing encoder implementation). -/
def MappingTable.lookup (key : CanonicalKey) : List (CanonicalKey × Nat) → Option Nat
  | [] => none
  | (k, i) :: rest => if k = key then some i else MappingTable.lookup key rest

/-- Modelled from the spec: `resolve(key) -> index` of section 4.2 (missing encoder
implementation): "if `key` already present, return its stored index unchanged; otherwise
assign the next unused sequential index ... and store the pair. Fails with
`CapacityExceeded` if assigning would exceed the representable index range"; a failed
resolution leaves the table as it was. -/
def MappingTable.resolve (table : MappingTable) (key : CanonicalKey) :
    Except EncoderError (Nat × MappingTable) :=
  match MappingTable.lookup key table.entries with
  | some index => .ok (index, table)
  | none =>
    if table.counter ≤ maxOramIndex then
      .ok (table.counter, ⟨table.entries ++ [(key, table.counter)], table.counter + 1⟩)
    else .error .CapacityExceeded

/-- Modelled from the spec: the state of the `Encoder` of sections 3 and 4.3 (missing encoder
implementation): the arity, "fixed for the lifetime of one encoder instance, established by
the first tuple ever processed", and the table, "instance-owned state". -/
structure Encoder where
  arity : Option Nat
  table : MappingTable
  deriving DecidableEq

/-- Modelled from the spec: the encoder after construction (section 3, lifecycle:
"MappingTable is created empty when the Encoder is constructed"; missing encoder
implementation). -/
def Encoder.empty : Encoder := ⟨none, ⟨[], 1⟩⟩

/-- The result of a call once `index` has been emitted in front of what the rest of the
batch yields; an error of the rest is the error of the call. -/
def emit (index : Nat) : Except EncoderError (List Nat) → Except EncoderError (List Nat)
  | .ok out => .ok (index :: out)
  | .error e => .error e

/-- Modelled from the spec: the per-tuple loop of `generateORAMIndexes` in section 4.3
(missing encoder implementation), run after the arity validation: "if the tuple satisfies
FilterPredicate, emit 0 without touching MappingTable; otherwise emit
`MappingTable.resolve(canonicalKey(tuple))`". A failing resolution ends the call, and "table
state prior to the failing tuple remains valid" (section 7). The exclusion predicate
(section 4.1) is the parameter `excluded`. -/
def resolveAll (excluded : BreakdownTuple → Bool) :
    List BreakdownTuple → MappingTable → Except EncoderError (List Nat) × MappingTable
  | [], table => (.ok [], table)
  | t :: rest, table =>
    if excluded t = true then
      (emit 0 (resolveAll excluded rest table).1, (resolveAll excluded rest table).2)
    else
      match table.resolve (canonicalKey t) with
      | .error e => (.error e, table)
      | .ok (index, table1) =>
        (emit index (resolveAll excluded rest table1).1, (resolveAll excluded rest table1).2)

/-- Modelled from the spec: the arity the tuples of a batch are validated against (section
3; missing encoder implementation): the one of the instance, "established by the first
tuple ever processed". -/
def establishedArity (enc : Encoder) (tuples : List BreakdownTuple) : Option Nat :=
  match enc.arity with
  | some arity => some arity
  | none => tuples.head?.map List.length

/-- Modelled from the spec: `generateORAMIndexes` of section 4.3 (declared pure virtual in
`IOramEncoder.h`; the implementation is missing). The result is the returned indices or the
error, together with the encoder after the call. "validation for the whole batch happens
before any mutation, so a rejected batch leaves the table untouched". -/
def generateORAMIndexes (excluded : BreakdownTuple → Bool) (enc : Encoder)
    (tuples : List BreakdownTuple) : Except EncoderError (List Nat) × Encoder :=
  if tuples.all (fun t => decide (establishedArity enc tuples = some t.length)) = true then
    ((resolveAll excluded tuples enc.table).1,
      ⟨establishedArity enc tuples, (resolveAll excluded tuples enc.table).2⟩)
  else (.error .ArityMismatch, enc)

/-- The encoder after a sequence of `generateORAMIndexes` calls, failed ones included. -/
def runCalls (excluded : BreakdownTuple → Bool) : Encoder → List (List BreakdownTuple) → Encoder
  | enc, [] => enc
  | enc, tuples :: later =>
    runCalls excluded (generateORAMIndexes excluded enc tuples).2 later

/-- The pairs (tuple, index) of one call: each submitted tuple with the index returned at
its position; a failed call returns nothing. -/
def pairsOfCall (tuples : List BreakdownTuple) : Except EncoderError (List Nat) →
    List (BreakdownTuple × Nat)
  | .ok out => tuples.zip out
  | .error _ => []

/-- All pairs (tuple, index) returned over a sequence of `generateORAMIndexes` calls. -/
def returnedPairs (excluded : BreakdownTuple → Bool) :
    Encoder → List (List BreakdownTuple) → List (BreakdownTuple × Nat)
  | _, [] => []
  | enc, tuples :: later =>
    pairsOfCall tuples (generateORAMIndexes excluded enc tuples).1 ++
      returnedPairs excluded (generateORAMIndexes excluded enc tuples).2 later

/-- The index a resolution of `t` yields on the encoder `enc` without changing it: 0 for an
excluded tuple, the stored index of its key otherwise. -/
def resolvedIndex (excluded : BreakdownTuple → Bool) (enc : Encoder) (t : BreakdownTuple) :
    Option Nat :=
  if excluded t = true then some 0 else MappingTable.lookup (canonicalKey t) enc.table.entries

/-- The reference exclusion condition of section 4.1: the all-zero tuple. -/
def allZero (t : BreakdownTuple) : Bool := t.all (fun v => decide (v = 0))

/-- The invariant of the mapping table of an encoder built by `generateORAMIndexes` calls:
the counter is the next index, the indices are 1, 2, 3, ... in insertion order, no key is
stored twice and no excluded tuple is stored. -/
structure MappingTable.WellFormed (excluded : BreakdownTuple → Bool) (table : MappingTable) :
    Prop where
  counter_eq : table.counter = table.entries.length + 1
  index_eq : ∀ (j : Nat) (key : CanonicalKey) (i : Nat),
    table.entries[j]? = some (key, i) → i = j + 1
  keys_nodup : (table.entries.map Prod.fst).Nodup
  not_excluded : ∀ p ∈ table.entries, excluded p.1 = false

end fbpcf.mpc_std_lib.oram

namespace private_lift

/-! ### `mapColToIndex` -/

theorem find_assign (key name : Str) (value : Int) (m : ColMap) :
    ColMap.find name (ColMap.assign key value m) =
      if key = name then some value else ColMap.find name m := by
  induction m with
  | nil => simp [ColMap.assign, ColMap.find]
  | cons p rest ih =>
    obtain ⟨k, v⟩ := p
    by_cases hk : k = key
    · subst hk
      by_cases hn : k = name <;> simp [ColMap.assign, ColMap.find, hn]
    · by_cases hn : k = name
      · subst hn
        have hne : ¬ key = k := fun h => hk h.symm
        simp [ColMap.assign, ColMap.find, hk, hne]
      · simp [ColMap.assign, ColMap.find, hk, hn, ih]

theorem find_assignPositions_of_not_mem (name : Str) :
    ∀ (header : List Str) (pos : Nat) (m : ColMap), name ∉ header →
      ColMap.find name (assignPositions header pos m) = ColMap.find name m := by
  intro header
  induction header with
  | nil => intro pos m _; rfl
  | cons h rest ih =>
    intro pos m hmem
    have h1 : ¬ h = name := fun e => hmem (by simp [e])
    have h2 : name ∉ rest := fun e => hmem (by simp [e])
    simp [assignPositions, ih _ _ h2, find_assign, h1]

theorem find_assignPositions_of_mem (name : Str) :
    ∀ (header : List Str) (pos : Nat) (m : ColMap), name ∈ header →
      ∃ i, header[i]? = some name ∧ (∀ j, i < j → header[j]? ≠ some name) ∧
        ColMap.find name (assignPositions header pos m) = some (toInt32 (pos + i)) := by
  intro header
  induction header with
  | nil => intro pos m hmem; simp at hmem
  | cons h rest ih =>
    intro pos m hmem
    by_cases hrest : name ∈ rest
    · obtain ⟨i, hi, hlast, hfind⟩ := ih (pos + 1) (ColMap.assign h (toInt32 pos) m) hrest
      refine ⟨i + 1, by simpa using hi, ?_, ?_⟩
      · intro j hj
        obtain ⟨j', rfl⟩ : ∃ j', j = j' + 1 := ⟨j - 1, by omega⟩
        simpa using hlast j' (by omega)
      · rw [assignPositions, hfind]
        congr 2
        omega
    · have hh : h = name := by
        rcases List.mem_cons.mp hmem with e | e
        · exact e.symm
        · exact absurd e hrest
      refine ⟨0, by simp [hh], ?_, ?_⟩
      · intro j hj
        obtain ⟨j', rfl⟩ : ∃ j', j = j' + 1 := ⟨j - 1, by omega⟩
        intro hc
        exact hrest (List.mem_iff_getElem?.mpr ⟨j', by simpa using hc⟩)
      · rw [assignPositions, find_assignPositions_of_not_mem name rest _ _ hrest, find_assign]
        simp [hh]

theorem toInt32_of_lt (n : Nat) (h : n < 2 ^ 31) : toInt32 n = (n : Int) := by
  have h1 : n % 2 ^ 32 = n := Nat.mod_eq_of_lt (by omega)
  unfold toInt32
  rw [h1, if_pos h]

/-- C10: the keys of the map returned by `mapColToIndex` are exactly the names occurring in
one of the two headers; a name of `headerPartner` is mapped to the position of its last
occurrence in `headerPartner`, a name occurring only in `headerPublisher` to the position of
its last occurrence there. Positions are stored as `int32_t` and are the positions themselves
below `2 ^ 31`. -/
theorem mapColToIndex_last_occurrence (headerPublisher headerPartner : List Str) (name : Str) :
    ((ColMap.find name (mapColToIndex headerPublisher headerPartner)).isSome = true ↔
        (name ∈ headerPublisher ∨ name ∈ headerPartner)) ∧
    (name ∈ headerPartner →
      ∃ i, headerPartner[i]? = some name ∧ (∀ j, i < j → headerPartner[j]? ≠ some name) ∧
        ColMap.find name (mapColToIndex headerPublisher headerPartner) = some (toInt32 i) ∧
        (i < 2 ^ 31 → toInt32 i = (i : Int))) ∧
    (name ∈ headerPublisher → name ∉ headerPartner →
      ∃ i, headerPublisher[i]? = some name ∧
        (∀ j, i < j → headerPublisher[j]? ≠ some name) ∧
        ColMap.find name (mapColToIndex headerPublisher headerPartner) = some (toInt32 i) ∧
        (i < 2 ^ 31 → toInt32 i = (i : Int))) := by
  have hPartner : name ∈ headerPartner →
      ∃ i, headerPartner[i]? = some name ∧ (∀ j, i < j → headerPartner[j]? ≠ some name) ∧
        ColMap.find name (mapColToIndex headerPublisher headerPartner) = some (toInt32 i) ∧
        (i < 2 ^ 31 → toInt32 i = (i : Int)) := by
    intro hmem
    obtain ⟨i, hi, hlast, hfind⟩ :=
      find_assignPositions_of_mem name headerPartner 0 (assignPositions headerPublisher 0 []) hmem
    exact ⟨i, hi, hlast, by simpa [mapColToIndex] using hfind, toInt32_of_lt i⟩
  have hPublisher : name ∈ headerPublisher → name ∉ headerPartner →
      ∃ i, headerPublisher[i]? = some name ∧
        (∀ j, i < j → headerPublisher[j]? ≠ some name) ∧
        ColMap.find name (mapColToIndex headerPublisher headerPartner) = some (toInt32 i) ∧
        (i < 2 ^ 31 → toInt32 i = (i : Int)) := by
    intro hmem hnot
    obtain ⟨i, hi, hlast, hfind⟩ := find_assignPositions_of_mem name headerPublisher 0 [] hmem
    refine ⟨i, hi, hlast, ?_, toInt32_of_lt i⟩
    rw [mapColToIndex, find_assignPositions_of_not_mem name headerPartner _ _ hnot]
    simpa using hfind
  refine ⟨⟨?_, ?_⟩, hPartner, hPublisher⟩
  · intro hsome
    by_contra hcon
    push_neg at hcon
    rw [mapColToIndex, find_assignPositions_of_not_mem name headerPartner _ _ hcon.2,
      find_assignPositions_of_not_mem name headerPublisher _ _ hcon.1] at hsome
    simp [ColMap.find] at hsome
  · intro hmem
    by_cases hq : name ∈ headerPartner
    · obtain ⟨i, _, _, hfind, _⟩ := hPartner hq
      simp [hfind]
    · have hp : name ∈ headerPublisher := hmem.resolve_right hq
      obtain ⟨i, _, _, hfind, _⟩ := hPublisher hp hq
      simp [hfind]

/-- The theorem C10 on the headers `a,b,a` and `c,b`: `b` is mapped to its position 1 in the
partner header, `a` to the position 2 of its last occurrence in the publisher header, and
the keys are `a`, `b`, `c`. -/
theorem mapColToIndex_last_occurrence_witness :
    mapColToIndex ["a".toList, "b".toList, "a".toList] ["c".toList, "b".toList] =
        [("a".toList, 2), ("b".toList, 1), ("c".toList, 0)] ∧
      "b".toList ∈ ["c".toList, "b".toList] ∧
      ∃ i, ["c".toList, "b".toList][i]? = some "b".toList ∧
        (∀ j, i < j → ["c".toList, "b".toList][j]? ≠ some "b".toList) ∧
        ColMap.find "b".toList
            (mapColToIndex ["a".toList, "b".toList, "a".toList] ["c".toList, "b".toList]) =
          some (toInt32 i) ∧
        (i < 2 ^ 31 → toInt32 i = (i : Int)) :=
  ⟨by decide, by decide,
    (mapColToIndex_last_occurrence ["a".toList, "b".toList, "a".toList]
      ["c".toList, "b".toList] "b".toList).2.1 (by decide)⟩

/-! ### `parseArray` -/

theorem digitChar_isDigit : ∀ k, k < 10 →
    (Nat.digitChar k).isDigit = true ∧ (Nat.digitChar k).toNat - 48 = k := by
  decide

theorem toDigitsCore_spec : ∀ (fuel n : Nat) (ds : List Char), n < fuel →
    ∃ L : List Char, Nat.toDigitsCore 10 fuel n ds = L ++ ds ∧ L ≠ [] ∧
      (∀ c ∈ L, c.isDigit = true) ∧
      ∀ acc, L.foldl (fun acc c => 10 * acc + (c.toNat - 48)) acc = acc * 10 ^ L.length + n := by
  intro fuel
  induction fuel with
  | zero => intro n ds h; omega
  | succ fuel ih =>
    intro n ds h
    have hd := digitChar_isDigit (n % 10) (Nat.mod_lt _ (by decide))
    by_cases h0 : n / 10 = 0
    · refine ⟨[Nat.digitChar (n % 10)], by simp [Nat.toDigitsCore, h0], by simp, ?_, ?_⟩
      · intro c hc
        rw [List.mem_singleton.mp hc]
        exact hd.1
      · intro acc
        have hmod : n % 10 = n := Nat.mod_eq_of_lt (by omega)
        simp only [List.foldl_cons, List.foldl_nil, hd.2, List.length_singleton, pow_one]
        omega
    · obtain ⟨L, hL, hne, hdig, hval⟩ := ih (n / 10) (Nat.digitChar (n % 10) :: ds) (by omega)
      refine ⟨L ++ [Nat.digitChar (n % 10)], by simp [Nat.toDigitsCore, h0, hL], by simp, ?_, ?_⟩
      · intro c hc
        rcases List.mem_append.mp hc with hc | hc
        · exact hdig c hc
        · rw [List.mem_singleton.mp hc]
          exact hd.1
      · intro acc
        rw [List.foldl_append, hval acc]
        simp only [List.foldl_cons, List.foldl_nil, hd.2, List.length_append, List.length_singleton]
        have hn : n = 10 * (n / 10) + n % 10 := (Nat.div_add_mod n 10).symm
        generalize n / 10 = q at hn ⊢
        generalize n % 10 = r at hn ⊢
        subst hn
        ring

theorem toDigits_spec (n : Nat) :
    Nat.toDigits 10 n ≠ [] ∧ (∀ c ∈ Nat.toDigits 10 n, c.isDigit = true) ∧
      decimalValue (Nat.toDigits 10 n) = n := by
  obtain ⟨L, hL, hne, hdig, hval⟩ := toDigitsCore_spec (n + 1) n [] (by omega)
  have hL2 : Nat.toDigits 10 n = L := by simpa [Nat.toDigits] using hL
  rw [hL2]
  refine ⟨hne, hdig, ?_⟩
  simpa [decimalValue] using hval 0

theorem isDigit_not_isSpace (c : Char) (h : c.isDigit = true) : isSpace c = false := by
  have h1 : 48 ≤ c.toNat := by
    simp only [Char.isDigit, Bool.and_eq_true, decide_eq_true_eq] at h
    exact h.1
  have h2 : c ≠ ' ' := by
    intro e
    rw [e] at h1
    exact absurd h1 (by decide)
  simp [isSpace, h2]
  omega

theorem takeSign_of_isDigit (c : Char) (rest : List Char) (h : c.isDigit = true) :
    takeSign (c :: rest) = (false, c :: rest) := by
  have h1 : c ≠ '-' := by
    intro e
    rw [e] at h
    exact absurd h (by decide)
  have h2 : c ≠ '+' := by
    intro e
    rw [e] at h
    exact absurd h (by decide)
  unfold takeSign
  split
  · rename_i heq
    exact absurd (List.cons.inj heq).1 h1
  · rename_i heq
    exact absurd (List.cons.inj heq).1 h2
  · rfl

theorem takeWhile_digits_append (L rest : List Char) (hdig : ∀ c ∈ L, c.isDigit = true)
    (hrest : ∀ c ∈ rest.head?, c.isDigit = false) :
    (L ++ rest).takeWhile Char.isDigit = L := by
  induction L with
  | nil =>
    cases rest with
    | nil => rfl
    | cons c cs =>
      have : c.isDigit = false := hrest c (by simp)
      simp [List.takeWhile, this]
  | cons c cs ih =>
    have hc : c.isDigit = true := hdig c (by simp)
    have := ih (fun d hd => hdig d (by simp [hd]))
    simp [List.takeWhile, hc, this]

theorem extractInt64_numeral (v : Nat) (hv : v < 2 ^ 63) (rest : List Char)
    (hrest : ∀ c ∈ rest.head?, c.isDigit = false) :
    extractInt64 (Nat.toDigits 10 v ++ rest) = some (v : Int) := by
  obtain ⟨hne, hdig, hval⟩ := toDigits_spec v
  generalize Nat.toDigits 10 v = L at hne hdig hval
  cases L with
  | nil => exact absurd rfl hne
  | cons c cs =>
    have hc : c.isDigit = true := hdig c (by simp)
    have hdrop : ((c :: cs) ++ rest).dropWhile isSpace = c :: (cs ++ rest) := by
      simp [List.dropWhile, isDigit_not_isSpace c hc]
    have htake : (c :: (cs ++ rest)).takeWhile Char.isDigit = c :: cs := by
      simpa using takeWhile_digits_append (c :: cs) rest hdig hrest
    unfold extractInt64
    simp only [hdrop, takeSign_of_isDigit c (cs ++ rest) hc, htake, hval]
    have hv2 : v < 9223372036854775808 := by simpa using hv
    simp [hv2]

theorem toUInt64_natCast (v : Nat) (hv : v < 2 ^ 64) : toUInt64 (v : Int) = v := by
  unfold toUInt64
  have : ((v : Int) % 2 ^ 64) = (v : Int) := Int.emod_eq_of_lt (by omega) (by exact_mod_cast hv)
  rw [this]
  simp

theorem parseCells_numerals (suffix : Str) (hs : ∀ c ∈ suffix.head?, c.isDigit = false) :
    ∀ vs : List Nat, (∀ v ∈ vs, v < 2 ^ 63) →
      parseCells (appendToLast suffix (vs.map (Nat.toDigits 10))) = some vs := by
  intro vs
  induction vs with
  | nil => intro _; rfl
  | cons v rest ih =>
    intro hrange
    have hv : v < 2 ^ 63 := hrange v (by simp)
    have hrest := ih (fun w hw => hrange w (by simp [hw]))
    cases rest with
    | nil =>
      simp [appendToLast, parseCells, extractInt64_numeral v hv suffix hs,
        toUInt64_natCast v (by omega)]
    | cons w ws =>
      have h0 := extractInt64_numeral v hv [] (by simp)
      rw [List.append_nil] at h0
      simp only [List.map_cons, appendToLast] at hrest ⊢
      simp [parseCells, h0, hrest, toUInt64_natCast v (by omega)]

theorem joinCells_append (suffix : Str) : ∀ cells : List Str, cells ≠ [] →
    joinCells cells ++ suffix = joinCells (appendToLast suffix cells) := by
  intro cells
  induction cells with
  | nil => intro h; exact absurd rfl h
  | cons c rest ih =>
    intro _
    cases rest with
    | nil => simp [joinCells, appendToLast]
    | cons d ds =>
      have := ih (by simp)
      cases hds : ds with
      | nil =>
        subst hds
        simp [joinCells, appendToLast]
      | cons e es =>
        subst hds
        simp only [joinCells, appendToLast, List.append_assoc, List.cons_append] at this ⊢
        rw [this]

theorem appendToLast_ne_nil (suffix : Str) : ∀ cells : List Str, cells ≠ [] →
    appendToLast suffix cells ≠ [] := by
  intro cells h
  match cells, h with
  | [c], _ => simp [appendToLast]
  | c :: d :: ds, _ => simp [appendToLast]

theorem mem_appendToLast (suffix : Str) : ∀ (cells : List Str) (x : Str),
    x ∈ appendToLast suffix cells → ∃ cell ∈ cells, x = cell ∨ x = cell ++ suffix := by
  intro cells
  induction cells with
  | nil => intro x hx; simp [appendToLast] at hx
  | cons c rest ih =>
    intro x hx
    cases rest with
    | nil =>
      simp only [appendToLast, List.mem_singleton] at hx
      exact ⟨c, by simp, Or.inr hx⟩
    | cons d ds =>
      simp only [appendToLast, List.mem_cons] at hx
      rcases hx with hx | hx
      · exact ⟨c, by simp, Or.inl hx⟩
      · obtain ⟨cell, hcell, hor⟩ := ih x (by simpa [appendToLast] using hx)
        exact ⟨cell, by simp [hcell], hor⟩

/-- C8: for a splitting routine that separates comma-joined cells, `parseArray` applied to
the string `[v1,v2,...,vn]` of a non-empty list of values below `2 ^ 63` returns exactly
`[v1, ..., vn]`. -/
theorem parseArray_bracketed_numerals (splitByComma : Str → Bool → List Str)
    (hsplit : SplitsOnComma splitByComma) (vs : List Nat) (hne : vs ≠ [])
    (hrange : ∀ v ∈ vs, v < 2 ^ 63) :
    parseArray splitByComma (renderArray vs) = some vs := by
  have hcells : vs.map (Nat.toDigits 10) ≠ [] := by simpa using hne
  have hinner : ((renderArray vs).drop 1).take ((renderArray vs).length - 1) =
      joinCells (appendToLast [']'] (vs.map (Nat.toDigits 10))) := by
    rw [← joinCells_append [']'] _ hcells]
    simp [renderArray]
  have hlen : ¬ (renderArray vs).length < 1 := by simp [renderArray]
  have hgood : ∀ cell ∈ appendToLast [']'] (vs.map (Nat.toDigits 10)),
      cell ≠ [] ∧ ∀ c ∈ cell, c.isDigit = true ∨ c = ']' := by
    intro x hx
    obtain ⟨cell, hcell, hor⟩ := mem_appendToLast [']'] _ x hx
    obtain ⟨v, _, rfl⟩ := List.mem_map.mp hcell
    obtain ⟨hnil, hdig, _⟩ := toDigits_spec v
    rcases hor with rfl | rfl
    · exact ⟨hnil, fun c hc => Or.inl (hdig c hc)⟩
    · refine ⟨by simp, ?_⟩
      intro c hc
      rcases List.mem_append.mp hc with h | h
      · exact Or.inl (hdig c h)
      · exact Or.inr (List.mem_singleton.mp h)
  unfold parseArray
  rw [if_neg hlen, hinner, hsplit _ (appendToLast_ne_nil [']'] _ hcells) hgood]
  exact parseCells_numerals [']'] (by simp) vs hrange

theorem splitCells_cell (cell : Str) (hcell : ',' ∉ cell) : ∀ (cur tail : Str),
    splitCells false cur false (cell ++ tail) = splitCells false (cur ++ cell) false tail := by
  induction cell with
  | nil => intro cur tail; simp
  | cons c cs ih =>
    intro cur tail
    have hc : ¬ c = ',' := fun e => hcell (by simp [e])
    have hcs : ',' ∉ cs := fun e => hcell (by simp [e])
    have := ih hcs (cur ++ [c]) tail
    simp only [List.cons_append, splitCells, hc, false_and, if_false, Bool.false_and]
    simpa using this

theorem commaSplit_joinCells : ∀ cells : List Str, cells ≠ [] →
    (∀ cell ∈ cells, cell ≠ [] ∧ ',' ∉ cell) → commaSplit (joinCells cells) false = cells := by
  intro cells
  induction cells with
  | nil => intro h; exact absurd rfl h
  | cons c rest ih =>
    intro _ hgood
    obtain ⟨hc, hcomma⟩ := hgood c (by simp)
    cases rest with
    | nil =>
      have := splitCells_cell c hcomma [] []
      simp only [List.append_nil, List.nil_append] at this
      simp [commaSplit, joinCells, this, splitCells, hc]
    | cons d ds =>
      have hrest := ih (by simp) (fun x hx => hgood x (by simp [hx]))
      have := splitCells_cell c hcomma [] (',' :: joinCells (d :: ds))
      simp only [List.nil_append] at this
      simp only [commaSplit] at hrest ⊢
      simp only [joinCells]
      rw [this]
      simp [splitCells, hc, hrest]

theorem commaSplit_splitsOnComma : SplitsOnComma commaSplit := by
  intro cells hne hgood
  apply commaSplit_joinCells cells hne
  intro cell hcell
  refine ⟨(hgood cell hcell).1, ?_⟩
  intro hmem
  rcases (hgood cell hcell).2 ',' hmem with h | h
  · exact absurd h (by decide)
  · exact absurd h (by decide)

/-- The theorem C8 applied to the values 111, 222, 333 and the comma splitter. -/
theorem parseArray_bracketed_numerals_witness :
    SplitsOnComma commaSplit ∧ ([111, 222, 333] : List Nat) ≠ [] ∧
      (∀ v ∈ ([111, 222, 333] : List Nat), v < 2 ^ 63) ∧
      renderArray [111, 222, 333] = "[111,222,333]".toList ∧
      parseArray commaSplit (renderArray [111, 222, 333]) = some [111, 222, 333] :=
  ⟨commaSplit_splitsOnComma, by decide, by decide, by decide,
    parseArray_bracketed_numerals commaSplit commaSplit_splitsOnComma [111, 222, 333]
      (by decide) (by decide)⟩

/-! ### `compute` -/

theorem computeLoop_eq_foldl (splitByComma : Str → Bool → List Str) (colNameToIndex : ColMap)
    (tsOffset : Int) : ∀ (pub part : List Str) (out : OutputMetricsData),
    computeLoop splitByComma colNameToIndex tsOffset pub part out =
      (readRows splitByComma colNameToIndex pub part).map
        (fun rows => rows.foldl (accumulate tsOffset) out) := by
  intro pub
  induction pub with
  | nil => intro part out; simp [computeLoop, readRows]
  | cons lp restP ih =>
    intro part out
    cases part with
    | nil => simp [computeLoop, readRows]
    | cons lq restQ =>
      simp only [computeLoop, readRows]
      cases parseRow splitByComma colNameToIndex lp lq with
      | none => rfl
      | some row =>
        simp only [ih]
        cases readRows splitByComma colNameToIndex restP restQ with
        | none => rfl
        | some rows => rfl

theorem compute_eq_foldl (splitByComma : Str → Bool → List Str) (pub part : List Str)
    (colNameToIndex : ColMap) (tsOffset : Int) (rows : List Row)
    (hrows : readRows splitByComma colNameToIndex pub part = some rows) :
    compute splitByComma pub part colNameToIndex tsOffset =
      some (rows.foldl (accumulate tsOffset) OutputMetricsData.init) := by
  simp [compute, computeLoop_eq_foldl, hrows]

theorem scanStep_spec (valuesIdx tsOffset : Int) (opportunityTimestamp ev value : Nat)
    (t : Tally) :
    (scanStep valuesIdx tsOffset opportunityTimestamp ev value t).events =
        t.events + (if opportunityTimestamp < offsetTimestamp ev tsOffset then 1 else 0) ∧
    (scanStep valuesIdx tsOffset opportunityTimestamp ev value t).converters =
        t.converters + (if t.converted = false ∧
          opportunityTimestamp < offsetTimestamp ev tsOffset then 1 else 0) ∧
    (scanStep valuesIdx tsOffset opportunityTimestamp ev value t).converted =
        (t.converted || decide (opportunityTimestamp < offsetTimestamp ev tsOffset)) ∧
    (valuesIdx = -1 →
      (scanStep valuesIdx tsOffset opportunityTimestamp ev value t).value_subsum =
        t.value_subsum) := by
  unfold scanStep
  by_cases hv : opportunityTimestamp < offsetTimestamp ev tsOffset <;>
    by_cases hm : 0 < opportunityTimestamp ∧ 0 < ev ∧ t.countedMatchAlready = false <;>
    cases hc : t.converted <;>
    simp +contextual [hv, hm, hc]

theorem scanEvents_spec (valuesIdx tsOffset : Int) (opportunityTimestamp : Nat) :
    ∀ (events values : List Nat) (t : Tally),
      (scanEvents valuesIdx tsOffset opportunityTimestamp events values t).events =
          t.events + (events.filter
            (fun ev => decide (opportunityTimestamp < offsetTimestamp ev tsOffset))).length ∧
      (scanEvents valuesIdx tsOffset opportunityTimestamp events values t).converters =
          t.converters + (if t.converted = false ∧ 0 < (events.filter
            (fun ev => decide (opportunityTimestamp < offsetTimestamp ev tsOffset))).length
            then 1 else 0) ∧
      (valuesIdx = -1 →
        (scanEvents valuesIdx tsOffset opportunityTimestamp events values t).value_subsum =
          t.value_subsum) := by
  intro events
  induction events with
  | nil => intro values t; simp [scanEvents]
  | cons ev rest ih =>
    intro values t
    simp only [scanEvents]
    obtain ⟨s1, s2, s3, s4⟩ :=
      scanStep_spec valuesIdx tsOffset opportunityTimestamp ev (values.headD 0) t
    obtain ⟨h1, h2, h3⟩ := ih values.tail
      (scanStep valuesIdx tsOffset opportunityTimestamp ev (values.headD 0) t)
    generalize scanStep valuesIdx tsOffset opportunityTimestamp ev (values.headD 0) t = u
      at s1 s2 s3 s4 h1 h2 h3 ⊢
    generalize scanEvents valuesIdx tsOffset opportunityTimestamp rest values.tail u = w
      at h1 h2 h3 ⊢
    rw [List.filter_cons]
    refine ⟨?_, ?_, fun hidx => (h3 hidx).trans (s4 hidx)⟩
    · rw [h1, s1]
      by_cases hv : opportunityTimestamp < offsetTimestamp ev tsOffset <;> simp [hv]
      omega
    · rw [h2, s2, s3]
      by_cases hv : opportunityTimestamp < offsetTimestamp ev tsOffset <;>
        cases hc : t.converted <;> simp [hv]

theorem accumulate_of_not_counted (tsOffset : Int) (out : OutputMetricsData) (row : Row)
    (h : row.counted = false) : accumulate tsOffset out row = out := by
  have hc : ¬ (row.opportunity ≠ 0 ∧ 0 < row.opportunityTimestamp) := by
    simpa [Row.counted] using h
  simp only [accumulate, if_neg hc]

theorem accumulate_counts (tsOffset : Int) (out : OutputMetricsData) (row : Row) :
    (accumulate tsOffset out row).testPopulation =
        out.testPopulation + (if row.isTest = true then 1 else 0) ∧
    (accumulate tsOffset out row).controlPopulation =
        out.controlPopulation + (if row.isControl = true then 1 else 0) ∧
    (accumulate tsOffset out row).testEvents =
        out.testEvents + (if row.isTest = true then row.conversions tsOffset else 0) ∧
    (accumulate tsOffset out row).controlEvents =
        out.controlEvents + (if row.isControl = true then row.conversions tsOffset else 0) ∧
    (accumulate tsOffset out row).testConverters =
        out.testConverters +
          (if (row.isTest && decide (0 < row.conversions tsOffset)) = true then 1 else 0) ∧
    (accumulate tsOffset out row).controlConverters =
        out.controlConverters +
          (if (row.isControl && decide (0 < row.conversions tsOffset)) = true then 1 else 0) := by
  by_cases hc : row.opportunity ≠ 0 ∧ 0 < row.opportunityTimestamp
  · have hcounted : row.counted = true := by simpa [Row.counted] using hc
    by_cases hf : row.testFlag ≠ 0
    · obtain ⟨h1, h2, _⟩ := scanEvents_spec row.valuesIdx tsOffset row.opportunityTimestamp
        row.eventTimestamps row.values
        ⟨out.testMatchCount, out.testConverters, out.testEvents, 0, false, false⟩
      have hf2 : ¬ row.testFlag = 0 := hf
      simp only [accumulate, if_pos hc, if_pos hf, h1, h2, Row.isTest, Row.isControl, hcounted,
        Row.conversions]
      simp [hf2]
    · obtain ⟨h1, h2, _⟩ := scanEvents_spec row.valuesIdx tsOffset row.opportunityTimestamp
        row.eventTimestamps row.values
        ⟨out.controlMatchCount, out.controlConverters, out.controlEvents, 0, false, false⟩
      have hf2 : row.testFlag = 0 := not_not.mp hf
      simp only [accumulate, if_pos hc, if_neg hf, h1, h2, Row.isTest, Row.isControl, hcounted,
        Row.conversions]
      simp [hf2]
  · have hcounted : row.counted = false := by simpa [Row.counted] using hc
    simp [accumulate_of_not_counted tsOffset out row hcounted, Row.isTest, Row.isControl,
      hcounted]

theorem accumulate_valueless (tsOffset : Int) (out : OutputMetricsData) (row : Row)
    (hidx : row.valuesIdx = -1)
    (hout : out.testValue = 0 ∧ out.controlValue = 0 ∧ out.testSquared = 0 ∧
      out.controlSquared = 0) :
    (accumulate tsOffset out row).testValue = 0 ∧
    (accumulate tsOffset out row).controlValue = 0 ∧
    (accumulate tsOffset out row).testSquared = 0 ∧
    (accumulate tsOffset out row).controlSquared = 0 := by
  obtain ⟨o1, o2, o3, o4⟩ := hout
  by_cases hc : row.opportunity ≠ 0 ∧ 0 < row.opportunityTimestamp
  · by_cases hf : row.testFlag ≠ 0
    · obtain ⟨_, _, h3⟩ := scanEvents_spec row.valuesIdx tsOffset row.opportunityTimestamp
        row.eventTimestamps row.values
        ⟨out.testMatchCount, out.testConverters, out.testEvents, 0, false, false⟩
      simp only [accumulate, if_pos hc, if_pos hf, h3 hidx, o1, o2, o3, o4]
      simp
    · obtain ⟨_, _, h3⟩ := scanEvents_spec row.valuesIdx tsOffset row.opportunityTimestamp
        row.eventTimestamps row.values
        ⟨out.controlMatchCount, out.controlConverters, out.controlEvents, 0, false, false⟩
      simp only [accumulate, if_pos hc, if_neg hf, h3 hidx, o1, o2, o3, o4]
      simp
  · simp only [accumulate, if_neg hc]
    exact ⟨o1, o2, o3, o4⟩

theorem foldl_accumulate_counts (tsOffset : Int) : ∀ (rows : List Row) (out : OutputMetricsData),
    (rows.foldl (accumulate tsOffset) out).testPopulation =
        out.testPopulation + (rows.filter Row.isTest).length ∧
    (rows.foldl (accumulate tsOffset) out).controlPopulation =
        out.controlPopulation + (rows.filter Row.isControl).length ∧
    (rows.foldl (accumulate tsOffset) out).testEvents =
        out.testEvents + ((rows.filter Row.isTest).map (Row.conversions tsOffset)).sum ∧
    (rows.foldl (accumulate tsOffset) out).controlEvents =
        out.controlEvents + ((rows.filter Row.isControl).map (Row.conversions tsOffset)).sum ∧
    (rows.foldl (accumulate tsOffset) out).testConverters =
        out.testConverters + (rows.filter
          (fun row => row.isTest && decide (0 < row.conversions tsOffset))).length ∧
    (rows.foldl (accumulate tsOffset) out).controlConverters =
        out.controlConverters + (rows.filter
          (fun row => row.isControl && decide (0 < row.conversions tsOffset))).length := by
  intro rows
  induction rows with
  | nil => intro out; simp
  | cons row rest ih =>
    intro out
    obtain ⟨a1, a2, a3, a4, a5, a6⟩ := accumulate_counts tsOffset out row
    obtain ⟨h1, h2, h3, h4, h5, h6⟩ := ih (accumulate tsOffset out row)
    simp only [List.foldl_cons, h1, h2, h3, h4, h5, h6, a1, a2, a3, a4, a5, a6,
      List.filter_cons]
    refine ⟨?_, ?_, ?_, ?_, ?_, ?_⟩
    · cases row.isTest
      · simp
      · simp
        omega
    · cases row.isControl
      · simp
      · simp
        omega
    · cases row.isTest
      · simp
      · simp
        omega
    · cases row.isControl
      · simp
      · simp
        omega
    · cases (row.isTest && decide (0 < row.conversions tsOffset))
      · simp
      · simp
        omega
    · cases (row.isControl && decide (0 < row.conversions tsOffset))
      · simp
      · simp
        omega

theorem foldl_accumulate_init (tsOffset : Int) (rows : List Row) :
    (rows.foldl (accumulate tsOffset) OutputMetricsData.init).testPopulation =
        (rows.filter Row.isTest).length ∧
    (rows.foldl (accumulate tsOffset) OutputMetricsData.init).controlPopulation =
        (rows.filter Row.isControl).length ∧
    (rows.foldl (accumulate tsOffset) OutputMetricsData.init).testEvents =
        ((rows.filter Row.isTest).map (Row.conversions tsOffset)).sum ∧
    (rows.foldl (accumulate tsOffset) OutputMetricsData.init).controlEvents =
        ((rows.filter Row.isControl).map (Row.conversions tsOffset)).sum ∧
    (rows.foldl (accumulate tsOffset) OutputMetricsData.init).testConverters =
        (rows.filter (fun row => row.isTest && decide (0 < row.conversions tsOffset))).length ∧
    (rows.foldl (accumulate tsOffset) OutputMetricsData.init).controlConverters =
        (rows.filter
          (fun row => row.isControl && decide (0 < row.conversions tsOffset))).length := by
  obtain ⟨h1, h2, h3, h4, h5, h6⟩ := foldl_accumulate_counts tsOffset rows OutputMetricsData.init
  exact ⟨h1.trans (Nat.zero_add _), h2.trans (Nat.zero_add _), h3.trans (Nat.zero_add _),
    h4.trans (Nat.zero_add _), h5.trans (Nat.zero_add _), h6.trans (Nat.zero_add _)⟩

theorem foldl_accumulate_valueless (tsOffset : Int) : ∀ (rows : List Row)
    (out : OutputMetricsData), (∀ row ∈ rows, row.valuesIdx = -1) →
    (out.testValue = 0 ∧ out.controlValue = 0 ∧ out.testSquared = 0 ∧
      out.controlSquared = 0) →
    (rows.foldl (accumulate tsOffset) out).testValue = 0 ∧
    (rows.foldl (accumulate tsOffset) out).controlValue = 0 ∧
    (rows.foldl (accumulate tsOffset) out).testSquared = 0 ∧
    (rows.foldl (accumulate tsOffset) out).controlSquared = 0 := by
  intro rows
  induction rows with
  | nil => intro out _ hout; simpa using hout
  | cons row rest ih =>
    intro out hidx hout
    simp only [List.foldl_cons]
    exact ih _ (fun r hr => hidx r (by simp [hr]))
      (accumulate_valueless tsOffset out row (hidx row (by simp)) hout)

theorem foldl_accumulate_filter_counted (tsOffset : Int) : ∀ (rows : List Row)
    (out : OutputMetricsData),
    rows.foldl (accumulate tsOffset) out =
      (rows.filter Row.counted).foldl (accumulate tsOffset) out := by
  intro rows
  induction rows with
  | nil => intro out; rfl
  | cons row rest ih =>
    intro out
    cases hc : row.counted with
    | true => simp only [List.foldl_cons, List.filter_cons, hc, if_true, ih]
    | false =>
      simp only [List.foldl_cons, List.filter_cons, hc, accumulate_of_not_counted tsOffset out row hc]
      simpa using ih out

theorem filter_length_le_sum (tsOffset : Int) (p : Row → Bool) : ∀ rows : List Row,
    (rows.filter (fun row => p row && decide (0 < row.conversions tsOffset))).length ≤
        ((rows.filter p).map (Row.conversions tsOffset)).sum ∧
    (rows.filter (fun row => p row && decide (0 < row.conversions tsOffset))).length ≤
        (rows.filter p).length := by
  intro rows
  induction rows with
  | nil => simp
  | cons row rest ih =>
    simp only [List.filter_cons]
    cases hp : p row with
    | false => simpa using ih
    | true =>
      by_cases hpos : 0 < row.conversions tsOffset
      · simp [hpos]
        omega
      · simp [hpos]
        omega

theorem parseRow_valuesIdx (splitByComma : Str → Bool → List Str) (colNameToIndex : ColMap)
    (linePublisher linePartner : Str) (row : Row)
    (hvalues : ColMap.find "values".toList colNameToIndex = none)
    (hrow : parseRow splitByComma colNameToIndex linePublisher linePartner = some row) :
    row.valuesIdx = -1 := by
  unfold parseRow at hrow
  simp only [hvalues] at hrow
  repeat' split at hrow
  all_goals first
    | (cases hrow
       rfl)
    | cases hrow

theorem readRows_valuesIdx (splitByComma : Str → Bool → List Str) (colNameToIndex : ColMap)
    (hvalues : ColMap.find "values".toList colNameToIndex = none) :
    ∀ (pub part : List Str) (rows : List Row),
      readRows splitByComma colNameToIndex pub part = some rows →
      ∀ row ∈ rows, row.valuesIdx = -1 := by
  intro pub
  induction pub with
  | nil =>
    intro part rows h
    simp only [readRows, Option.some.injEq] at h
    subst h
    simp
  | cons lp restP ih =>
    intro part rows h
    cases part with
    | nil =>
      simp only [readRows, Option.some.injEq] at h
      subst h
      simp
    | cons lq restQ =>
      simp only [readRows] at h
      cases hrow : parseRow splitByComma colNameToIndex lp lq with
      | none => simp [hrow] at h
      | some row =>
        cases hrest : readRows splitByComma colNameToIndex restP restQ with
        | none => simp [hrow, hrest] at h
        | some rest =>
          simp only [hrow, hrest, Option.some.injEq] at h
          subst h
          intro r hr
          rcases List.mem_cons.mp hr with e | e
          · rw [e]
            exact parseRow_valuesIdx splitByComma colNameToIndex lp lq row hvalues hrow
          · exact ih restQ rest hrest r e

/-- C6: when every row pair parses, `compute` returns, `testConverters` is the number of
counted test rows with at least one event `i` such that
`opportunityTimestamp < eventTimestamps[i] + tsOffset` (unsigned 64-bit), `testEvents` is the
total number of such events over the counted test rows, hence
`testConverters ≤ testEvents` and `testConverters ≤ testPopulation`; the same holds for the
control counters on the counted rows with `testFlag = 0`. -/
theorem compute_converters_once_per_row (splitByComma : Str → Bool → List Str)
    (inFilePublisher inFilePartner : List Str) (colNameToIndex : ColMap) (tsOffset : Int)
    (rows : List Row)
    (hrows : readRows splitByComma colNameToIndex inFilePublisher inFilePartner = some rows) :
    ∃ out, compute splitByComma inFilePublisher inFilePartner colNameToIndex tsOffset = some out ∧
      out.testConverters =
        (rows.filter (fun row => row.isTest && decide (0 < row.conversions tsOffset))).length ∧
      out.testEvents = ((rows.filter Row.isTest).map (Row.conversions tsOffset)).sum ∧
      out.testConverters ≤ out.testEvents ∧ out.testConverters ≤ out.testPopulation ∧
      out.controlConverters =
        (rows.filter
          (fun row => row.isControl && decide (0 < row.conversions tsOffset))).length ∧
      out.controlEvents = ((rows.filter Row.isControl).map (Row.conversions tsOffset)).sum ∧
      out.controlConverters ≤ out.controlEvents ∧
      out.controlConverters ≤ out.controlPopulation := by
  refine ⟨_, compute_eq_foldl splitByComma inFilePublisher inFilePartner colNameToIndex tsOffset
    rows hrows, ?_⟩
  obtain ⟨h1, h2, h3, h4, h5, h6⟩ := foldl_accumulate_init tsOffset rows
  have ht := filter_length_le_sum tsOffset Row.isTest rows
  have hc := filter_length_le_sum tsOffset Row.isControl rows
  rw [h1, h2, h3, h4, h5, h6]
  exact ⟨rfl, rfl, ht.1, ht.2, rfl, rfl, hc.1, hc.2⟩

/-- The theorem C6 on the sample lines: one converting test row with two valid events, one
converting control row with one valid event. -/
theorem compute_converters_once_per_row_witness :
    readRows commaSplit sampleColumns samplePublisher samplePartner =
        some [⟨1, 1, 100, [50, 150, 200], 2, [1, 2, 3]⟩, ⟨1, 0, 100, [150, 0], 2, [7, 8]⟩,
          ⟨0, 1, 100, [150], 2, [9]⟩] ∧
      ∃ out, compute commaSplit samplePublisher samplePartner sampleColumns 0 = some out ∧
        out.testConverters = 1 ∧ out.testEvents = 2 ∧
        out.testConverters ≤ out.testEvents ∧ out.testConverters ≤ out.testPopulation ∧
        out.controlConverters = 1 ∧ out.controlEvents = 1 ∧
        out.controlConverters ≤ out.controlEvents ∧
        out.controlConverters ≤ out.controlPopulation :=
  ⟨by decide,
    compute_converters_once_per_row commaSplit samplePublisher samplePartner sampleColumns 0
      [⟨1, 1, 100, [50, 150, 200], 2, [1, 2, 3]⟩, ⟨1, 0, 100, [150, 0], 2, [7, 8]⟩,
        ⟨0, 1, 100, [150], 2, [9]⟩] (by decide)⟩

/-- C7: when `colNameToIndex` has no `values` key and every row pair parses, `compute`
returns with `testValue = controlValue = 0` and `testSquared = controlSquared = 0`, whatever
the event timestamps are, while events and converters are counted as usual. -/
theorem compute_valueless (splitByComma : Str → Bool → List Str)
    (inFilePublisher inFilePartner : List Str) (colNameToIndex : ColMap) (tsOffset : Int)
    (rows : List Row)
    (hvalues : ColMap.find "values".toList colNameToIndex = none)
    (hrows : readRows splitByComma colNameToIndex inFilePublisher inFilePartner = some rows) :
    ∃ out, compute splitByComma inFilePublisher inFilePartner colNameToIndex tsOffset = some out ∧
      out.testValue = 0 ∧ out.controlValue = 0 ∧ out.testSquared = 0 ∧
      out.controlSquared = 0 ∧
      out.testEvents = ((rows.filter Row.isTest).map (Row.conversions tsOffset)).sum ∧
      out.controlEvents = ((rows.filter Row.isControl).map (Row.conversions tsOffset)).sum ∧
      out.testConverters =
        (rows.filter (fun row => row.isTest && decide (0 < row.conversions tsOffset))).length ∧
      out.controlConverters =
        (rows.filter
          (fun row => row.isControl && decide (0 < row.conversions tsOffset))).length := by
  refine ⟨_, compute_eq_foldl splitByComma inFilePublisher inFilePartner colNameToIndex tsOffset
    rows hrows, ?_⟩
  obtain ⟨_, _, h3, h4, h5, h6⟩ := foldl_accumulate_init tsOffset rows
  obtain ⟨v1, v2, v3, v4⟩ := foldl_accumulate_valueless tsOffset rows OutputMetricsData.init
    (readRows_valuesIdx splitByComma colNameToIndex hvalues inFilePublisher inFilePartner rows
      hrows)
    ⟨rfl, rfl, rfl, rfl⟩
  exact ⟨v1, v2, v3, v4, h3, h4, h5, h6⟩

/-- The theorem C7 on the sample lines without a `values` column. -/
theorem compute_valueless_witness :
    ColMap.find "values".toList sampleColumnsValueless = none ∧
      readRows commaSplit sampleColumnsValueless samplePublisher samplePartnerValueless =
        some [⟨1, 1, 100, [50, 150, 200], -1, []⟩, ⟨1, 0, 100, [150, 0], -1, []⟩,
          ⟨0, 1, 100, [150], -1, []⟩] ∧
      ∃ out, compute commaSplit samplePublisher samplePartnerValueless sampleColumnsValueless 0 =
          some out ∧
        out.testValue = 0 ∧ out.controlValue = 0 ∧ out.testSquared = 0 ∧
        out.controlSquared = 0 ∧
        out.testEvents = 2 ∧ out.controlEvents = 1 ∧
        out.testConverters = 1 ∧ out.controlConverters = 1 :=
  ⟨by decide, by decide,
    compute_valueless commaSplit samplePublisher samplePartnerValueless sampleColumnsValueless 0
      [⟨1, 1, 100, [50, 150, 200], -1, []⟩, ⟨1, 0, 100, [150, 0], -1, []⟩,
        ⟨0, 1, 100, [150], -1, []⟩] (by decide) (by decide)⟩

/-- C9: when every row pair parses, `compute` returns, `testPopulation` is the number of row
pairs with `opportunity ≠ 0`, `opportunityTimestamp > 0` and `testFlag ≠ 0`,
`controlPopulation` the number with `opportunity ≠ 0`, `opportunityTimestamp > 0` and
`testFlag = 0`; a row pair with `opportunity = 0` or `opportunityTimestamp = 0` leaves every
field of the metrics unchanged, so the result is the one obtained from the counted rows
alone. -/
theorem compute_population (splitByComma : Str → Bool → List Str)
    (inFilePublisher inFilePartner : List Str) (colNameToIndex : ColMap) (tsOffset : Int)
    (rows : List Row)
    (hrows : readRows splitByComma colNameToIndex inFilePublisher inFilePartner = some rows) :
    ∃ out, compute splitByComma inFilePublisher inFilePartner colNameToIndex tsOffset = some out ∧
      out.testPopulation =
        (rows.filter (fun row => decide (row.opportunity ≠ 0) &&
          decide (0 < row.opportunityTimestamp) && decide (row.testFlag ≠ 0))).length ∧
      out.controlPopulation =
        (rows.filter (fun row => decide (row.opportunity ≠ 0) &&
          decide (0 < row.opportunityTimestamp) && decide (row.testFlag = 0))).length ∧
      out = (rows.filter (fun row => decide (row.opportunity ≠ 0) &&
          decide (0 < row.opportunityTimestamp))).foldl (accumulate tsOffset)
            OutputMetricsData.init ∧
      ∀ (metrics : OutputMetricsData) (row : Row),
        row.opportunity = 0 ∨ row.opportunityTimestamp = 0 →
          accumulate tsOffset metrics row = metrics := by
  refine ⟨_, compute_eq_foldl splitByComma inFilePublisher inFilePartner colNameToIndex tsOffset
    rows hrows, ?_⟩
  obtain ⟨h1, h2, _⟩ := foldl_accumulate_init tsOffset rows
  refine ⟨h1, h2, foldl_accumulate_filter_counted tsOffset rows OutputMetricsData.init, ?_⟩
  intro metrics row hrow
  apply accumulate_of_not_counted
  rcases hrow with h | h <;> simp [Row.counted, h]

/-- The theorem C9 on the sample lines: one test row, one control row, one row that is not
counted. -/
theorem compute_population_witness :
    readRows commaSplit sampleColumns samplePublisher samplePartner =
        some [⟨1, 1, 100, [50, 150, 200], 2, [1, 2, 3]⟩, ⟨1, 0, 100, [150, 0], 2, [7, 8]⟩,
          ⟨0, 1, 100, [150], 2, [9]⟩] ∧
      ∃ out, compute commaSplit samplePublisher samplePartner sampleColumns 0 = some out ∧
        out.testPopulation = 1 ∧ out.controlPopulation = 1 ∧
        out = [(⟨1, 1, 100, [50, 150, 200], 2, [1, 2, 3]⟩ : Row),
          ⟨1, 0, 100, [150, 0], 2, [7, 8]⟩].foldl (accumulate 0) OutputMetricsData.init ∧
        ∀ (metrics : OutputMetricsData) (row : Row),
          row.opportunity = 0 ∨ row.opportunityTimestamp = 0 →
            accumulate 0 metrics row = metrics :=
  ⟨by decide,
    compute_population commaSplit samplePublisher samplePartner sampleColumns 0
      [⟨1, 1, 100, [50, 150, 200], 2, [1, 2, 3]⟩, ⟨1, 0, 100, [150, 0], 2, [7, 8]⟩,
        ⟨0, 1, 100, [150], 2, [9]⟩] (by decide)⟩

end private_lift

namespace fbpcf.mpc_std_lib.oram

/-! ### The mapping table -/

theorem lookup_append (key k : CanonicalKey) (v : Nat) (entries : List (CanonicalKey × Nat)) :
    MappingTable.lookup key (entries ++ [(k, v)]) =
      match MappingTable.lookup key entries with
      | some i => some i
      | none => if k = key then some v else none := by
  induction entries with
  | nil => simp [MappingTable.lookup]
  | cons p rest ih =>
    obtain ⟨k', v'⟩ := p
    by_cases h : k' = key
    · simp [MappingTable.lookup, h]
    · simp [MappingTable.lookup, h, ih]

theorem mem_of_lookup (key : CanonicalKey) (i : Nat) :
    ∀ entries : List (CanonicalKey × Nat),
      MappingTable.lookup key entries = some i → (key, i) ∈ entries := by
  intro entries
  induction entries with
  | nil => intro h; simp [MappingTable.lookup] at h
  | cons p rest ih =>
    obtain ⟨k', v'⟩ := p
    intro h
    by_cases hk : k' = key
    · simp only [MappingTable.lookup, hk, if_true, Option.some.injEq] at h
      simp [hk, h]
    · simp only [MappingTable.lookup, hk, if_false] at h
      exact List.mem_cons_of_mem _ (ih h)

theorem lookup_of_mem (key : CanonicalKey) (i : Nat) :
    ∀ entries : List (CanonicalKey × Nat), (entries.map Prod.fst).Nodup →
      (key, i) ∈ entries → MappingTable.lookup key entries = some i := by
  intro entries
  induction entries with
  | nil => intro _ h; simp at h
  | cons p rest ih =>
    obtain ⟨k', v'⟩ := p
    intro hnd hmem
    simp only [List.map_cons, List.nodup_cons] at hnd
    rcases List.mem_cons.mp hmem with e | e
    · simp only [Prod.mk.injEq] at e
      simp [MappingTable.lookup, e.1, e.2]
    · have hk : ¬ k' = key := by
        intro hk
        apply hnd.1
        rw [hk]
        exact List.mem_map.mpr ⟨(key, i), e, rfl⟩
      simp only [MappingTable.lookup, hk, if_false]
      exact ih hnd.2 e

theorem lookup_eq_none (key : CanonicalKey) :
    ∀ entries : List (CanonicalKey × Nat),
      MappingTable.lookup key entries = none → key ∉ entries.map Prod.fst := by
  intro entries
  induction entries with
  | nil => intro _; simp
  | cons p rest ih =>
    obtain ⟨k', v'⟩ := p
    intro h
    by_cases hk : k' = key
    · simp [MappingTable.lookup, hk] at h
    · simp only [MappingTable.lookup, hk, if_false] at h
      have := ih h
      simp only [List.map_cons, List.mem_cons, not_or]
      exact ⟨fun e => hk e.symm, this⟩

/-- What a successful resolution does: the table is unchanged and the key was stored, or the
key was absent and is appended with the counter as index. -/
theorem resolve_ok (table table1 : MappingTable) (key : CanonicalKey) (i : Nat)
    (h : table.resolve key = .ok (i, table1)) :
    (MappingTable.lookup key table.entries = some i ∧ table1 = table) ∨
    (MappingTable.lookup key table.entries = none ∧ table.counter ≤ maxOramIndex ∧
      i = table.counter ∧
      table1 = ⟨table.entries ++ [(key, table.counter)], table.counter + 1⟩) := by
  unfold MappingTable.resolve at h
  cases hl : MappingTable.lookup key table.entries with
  | some j =>
    simp only [hl, Except.ok.injEq, Prod.mk.injEq] at h
    exact Or.inl ⟨by rw [h.1], h.2.symm⟩
  | none =>
    simp only [hl] at h
    by_cases hc : table.counter ≤ maxOramIndex
    · simp only [if_pos hc, Except.ok.injEq, Prod.mk.injEq] at h
      exact Or.inr ⟨rfl, hc, h.1.symm, h.2.symm⟩
    · simp [if_neg hc] at h

theorem resolve_error (table : MappingTable) (key : CanonicalKey) (e : EncoderError)
    (h : table.resolve key = .error e) :
    e = .CapacityExceeded ∧ maxOramIndex < table.counter := by
  unfold MappingTable.resolve at h
  cases hl : MappingTable.lookup key table.entries with
  | some j => simp [hl] at h
  | none =>
    simp only [hl] at h
    by_cases hc : table.counter ≤ maxOramIndex
    · simp [if_pos hc] at h
    · simp only [if_neg hc, Except.error.injEq] at h
      exact ⟨h.symm, by omega⟩

theorem resolve_lookup (table table1 : MappingTable) (key : CanonicalKey) (i : Nat)
    (h : table.resolve key = .ok (i, table1)) :
    MappingTable.lookup key table1.entries = some i ∧
      ∀ key' i', MappingTable.lookup key' table.entries = some i' →
        MappingTable.lookup key' table1.entries = some i' := by
  rcases resolve_ok table table1 key i h with ⟨hl, rfl⟩ | ⟨hl, _, rfl, rfl⟩
  · exact ⟨hl, fun _ _ h' => h'⟩
  · refine ⟨by simp [lookup_append, hl], ?_⟩
    intro key' i' h'
    simp [lookup_append, h']

theorem emit_eq_ok (i : Nat) (r : Except EncoderError (List Nat)) (out : List Nat)
    (h : emit i r = .ok out) : ∃ out', r = .ok out' ∧ out = i :: out' := by
  cases r with
  | error e => simp [emit] at h
  | ok out' =>
    simp only [emit, Except.ok.injEq] at h
    exact ⟨out', rfl, h.symm⟩

theorem resolveAll_lookup_mono (excluded : BreakdownTuple → Bool) :
    ∀ (tuples : List BreakdownTuple) (table : MappingTable) (key : CanonicalKey) (i : Nat),
      MappingTable.lookup key table.entries = some i →
      MappingTable.lookup key (resolveAll excluded tuples table).2.entries = some i := by
  intro tuples
  induction tuples with
  | nil => intro table key i h; simpa [resolveAll] using h
  | cons t rest ih =>
    intro table key i h
    by_cases hex : excluded t = true
    · simp only [resolveAll, if_pos hex]
      exact ih table key i h
    · simp only [resolveAll, if_neg hex]
      cases hr : table.resolve (canonicalKey t) with
      | error e => simpa using h
      | ok p =>
        obtain ⟨j, table1⟩ := p
        simp only []
        exact ih table1 key i ((resolve_lookup table table1 _ j hr).2 key i h)

theorem resolveAll_ok (excluded : BreakdownTuple → Bool) :
    ∀ (tuples : List BreakdownTuple) (table : MappingTable) (out : List Nat),
      (resolveAll excluded tuples table).1 = .ok out →
      out.length = tuples.length ∧
      ∀ (k : Nat) (t : BreakdownTuple), tuples[k]? = some t →
        out[k]? = if excluded t = true then some 0
          else MappingTable.lookup (canonicalKey t)
            (resolveAll excluded tuples table).2.entries := by
  intro tuples
  induction tuples with
  | nil =>
    intro table out h
    simp only [resolveAll, Except.ok.injEq] at h
    subst h
    simp
  | cons t rest ih =>
    intro table out h
    by_cases hex : excluded t = true
    · simp only [resolveAll, if_pos hex] at h ⊢
      obtain ⟨out', hout', rfl⟩ := emit_eq_ok 0 _ out h
      obtain ⟨hlen, hidx⟩ := ih table out' hout'
      refine ⟨by simp [hlen], ?_⟩
      intro k u hu
      cases k with
      | zero =>
        simp only [List.getElem?_cons_zero, Option.some.injEq] at hu
        subst hu
        simp [hex]
      | succ k =>
        simp only [List.getElem?_cons_succ] at hu ⊢
        exact hidx k u hu
    · simp only [resolveAll, if_neg hex] at h ⊢
      cases hr : table.resolve (canonicalKey t) with
      | error e => simp [hr] at h
      | ok p =>
        obtain ⟨j, table1⟩ := p
        simp only [hr] at h ⊢
        obtain ⟨out', hout', rfl⟩ := emit_eq_ok j _ out h
        obtain ⟨hlen, hidx⟩ := ih table1 out' hout'
        refine ⟨by simp [hlen], ?_⟩
        intro k u hu
        cases k with
        | zero =>
          simp only [List.getElem?_cons_zero, Option.some.injEq] at hu
          subst hu
          simp only [List.getElem?_cons_zero, if_neg hex]
          exact (resolveAll_lookup_mono excluded rest table1 _ j
            (resolve_lookup table table1 _ j hr).1).symm
        | succ k =>
          simp only [List.getElem?_cons_succ] at hu ⊢
          exact hidx k u hu

theorem resolveAll_returns (excluded : BreakdownTuple → Bool) :
    ∀ (tuples : List BreakdownTuple) (table : MappingTable),
      table.counter + tuples.length ≤ maxOramIndex + 1 →
      ∃ out, (resolveAll excluded tuples table).1 = .ok out := by
  intro tuples
  induction tuples with
  | nil => intro table _; exact ⟨[], rfl⟩
  | cons t rest ih =>
    intro table hcap
    simp only [List.length_cons] at hcap
    by_cases hex : excluded t = true
    · obtain ⟨out, hout⟩ := ih table (by omega)
      exact ⟨0 :: out, by simp [resolveAll, hex, hout, emit]⟩
    · cases hr : table.resolve (canonicalKey t) with
      | error e =>
        have := (resolve_error table _ e hr).2
        omega
      | ok p =>
        obtain ⟨j, table1⟩ := p
        have hc1 : table1.counter ≤ table.counter + 1 := by
          rcases resolve_ok table table1 _ j hr with ⟨_, rfl⟩ | ⟨_, _, _, rfl⟩
          · omega
          · simp
        obtain ⟨out, hout⟩ := ih table1 (by omega)
        exact ⟨j :: out, by simp [resolveAll, hex, hr, hout, emit]⟩

/-! ### Batch calls -/

theorem establishedArity_of_some (enc : Encoder) (tuples : List BreakdownTuple) (a : Nat)
    (h : enc.arity = some a) : establishedArity enc tuples = some a := by
  simp [establishedArity, h]

theorem generateORAMIndexes_cases (excluded : BreakdownTuple → Bool) (enc : Encoder)
    (tuples : List BreakdownTuple) :
    ((∃ t ∈ tuples, establishedArity enc tuples ≠ some t.length) ∧
      generateORAMIndexes excluded enc tuples = (.error .ArityMismatch, enc)) ∨
    ((∀ t ∈ tuples, establishedArity enc tuples = some t.length) ∧
      generateORAMIndexes excluded enc tuples =
        ((resolveAll excluded tuples enc.table).1,
          ⟨establishedArity enc tuples, (resolveAll excluded tuples enc.table).2⟩)) := by
  by_cases h : tuples.all (fun t => decide (establishedArity enc tuples = some t.length)) = true
  · right
    refine ⟨?_, by simp only [generateORAMIndexes, if_pos h]⟩
    intro t ht
    simpa using (List.all_eq_true.mp h) t ht
  · left
    refine ⟨?_, by simp only [generateORAMIndexes, if_neg h]⟩
    by_contra hcon
    push_neg at hcon
    exact h (List.all_eq_true.mpr (fun t ht => by simpa using hcon t ht))

theorem generateORAMIndexes_ok (excluded : BreakdownTuple → Bool) (enc enc' : Encoder)
    (tuples : List BreakdownTuple) (out : List Nat)
    (h : generateORAMIndexes excluded enc tuples = (.ok out, enc')) :
    (∀ t ∈ tuples, establishedArity enc tuples = some t.length) ∧
      (resolveAll excluded tuples enc.table).1 = .ok out ∧
      enc' = ⟨establishedArity enc tuples, (resolveAll excluded tuples enc.table).2⟩ := by
  rcases generateORAMIndexes_cases excluded enc tuples with ⟨_, hbad⟩ | ⟨harity, hgood⟩
  · rw [hbad] at h
    simp at h
  · rw [hgood] at h
    simp only [Prod.mk.injEq] at h
    exact ⟨harity, h.1, h.2.symm⟩

theorem generateORAMIndexes_persist (excluded : BreakdownTuple → Bool) (enc : Encoder)
    (tuples : List BreakdownTuple) (t : BreakdownTuple) (i : Nat)
    (h : enc.arity = some t.length ∧ resolvedIndex excluded enc t = some i) :
    (generateORAMIndexes excluded enc tuples).2.arity = some t.length ∧
      resolvedIndex excluded (generateORAMIndexes excluded enc tuples).2 t = some i := by
  rcases generateORAMIndexes_cases excluded enc tuples with ⟨_, hbad⟩ | ⟨_, hgood⟩
  · rw [hbad]
    exact h
  · rw [hgood]
    refine ⟨establishedArity_of_some enc tuples _ h.1, ?_⟩
    have h2 := h.2
    unfold resolvedIndex at h2 ⊢
    by_cases hex : excluded t = true
    · simpa [hex] using h2
    · simp only [if_neg hex] at h2 ⊢
      exact resolveAll_lookup_mono excluded tuples enc.table _ i h2

theorem runCalls_persist (excluded : BreakdownTuple → Bool) (t : BreakdownTuple) (i : Nat) :
    ∀ (calls : List (List BreakdownTuple)) (enc : Encoder),
      (enc.arity = some t.length ∧ resolvedIndex excluded enc t = some i) →
      (runCalls excluded enc calls).arity = some t.length ∧
        resolvedIndex excluded (runCalls excluded enc calls) t = some i := by
  intro calls
  induction calls with
  | nil => intro enc h; exact h
  | cons tuples later ih =>
    intro enc h
    exact ih _ (generateORAMIndexes_persist excluded enc tuples t i h)

theorem pairsOfCall_persist (excluded : BreakdownTuple → Bool) (enc : Encoder)
    (tuples : List BreakdownTuple) (t : BreakdownTuple) (i : Nat)
    (h : (t, i) ∈ pairsOfCall tuples (generateORAMIndexes excluded enc tuples).1) :
    (generateORAMIndexes excluded enc tuples).2.arity = some t.length ∧
      resolvedIndex excluded (generateORAMIndexes excluded enc tuples).2 t = some i := by
  cases hr : (generateORAMIndexes excluded enc tuples).1 with
  | error e => simp [hr, pairsOfCall] at h
  | ok out =>
    simp only [hr, pairsOfCall] at h
    obtain ⟨harity, hres, henc⟩ := generateORAMIndexes_ok excluded enc
      (generateORAMIndexes excluded enc tuples).2 tuples out (by rw [← hr])
    obtain ⟨k, hk⟩ := List.mem_iff_getElem?.mp h
    obtain ⟨hk1, hk2⟩ := List.getElem?_zip_eq_some.mp hk
    simp only at hk1 hk2
    have ht : t ∈ tuples := List.mem_iff_getElem?.mpr ⟨k, hk1⟩
    obtain ⟨_, hidx⟩ := resolveAll_ok excluded tuples enc.table out hres
    have := hidx k t hk1
    rw [hk2] at this
    rw [henc]
    exact ⟨harity t ht, by simpa [resolvedIndex] using this.symm⟩

theorem returnedPairs_persist (excluded : BreakdownTuple → Bool) (t : BreakdownTuple) (i : Nat) :
    ∀ (calls : List (List BreakdownTuple)) (enc : Encoder),
      (t, i) ∈ returnedPairs excluded enc calls →
      (runCalls excluded enc calls).arity = some t.length ∧
        resolvedIndex excluded (runCalls excluded enc calls) t = some i := by
  intro calls
  induction calls with
  | nil => intro enc h; simp [returnedPairs] at h
  | cons tuples later ih =>
    intro enc h
    simp only [returnedPairs, List.mem_append] at h
    rcases h with h | h
    · exact runCalls_persist excluded t i later _ (pairsOfCall_persist excluded enc tuples t i h)
    · exact ih _ h

theorem runCalls_append (excluded : BreakdownTuple → Bool) :
    ∀ (earlier later : List (List BreakdownTuple)) (enc : Encoder),
      runCalls excluded enc (earlier ++ later) =
        runCalls excluded (runCalls excluded enc earlier) later := by
  intro earlier
  induction earlier with
  | nil => intro later enc; rfl
  | cons tuples rest ih => intro later enc; exact ih later _

theorem generateORAMIndexes_singleton (excluded : BreakdownTuple → Bool) (enc : Encoder)
    (t : BreakdownTuple) (i : Nat)
    (h : enc.arity = some t.length ∧ resolvedIndex excluded enc t = some i) :
    generateORAMIndexes excluded enc [t] = (.ok [i], enc) := by
  obtain ⟨harity, hres⟩ := h
  have hest : establishedArity enc [t] = some t.length := establishedArity_of_some enc [t] _ harity
  have hr : resolveAll excluded [t] enc.table = (.ok [i], enc.table) := by
    unfold resolvedIndex at hres
    by_cases hex : excluded t = true
    · simp only [if_pos hex, Option.some.injEq] at hres
      subst hres
      simp only [resolveAll, if_pos hex, emit]
    · simp only [if_neg hex] at hres
      simp only [resolveAll, if_neg hex, MappingTable.resolve, hres, emit]
  rcases generateORAMIndexes_cases excluded enc [t] with ⟨⟨u, hu, hne⟩, _⟩ | ⟨_, hgood⟩
  · rw [List.mem_singleton.mp hu] at hne
    exact absurd hest hne
  · rw [hgood, hest, hr, ← harity]

/-- C4: the empty batch returns the empty sequence; a batch whose tuples all have the arity
of the encoder and for which the index range suffices returns; and whenever a batch returns,
the output has the length of the input and `output[k]` is the index resolved for `input[k]`
on the encoder left by the call. -/
theorem generateORAMIndexes_order_preservation (excluded : BreakdownTuple → Bool)
    (enc : Encoder) (tuples : List BreakdownTuple) :
    generateORAMIndexes excluded enc [] = (.ok [], enc) ∧
    ((∀ t ∈ tuples, establishedArity enc tuples = some t.length) →
      enc.table.counter + tuples.length ≤ maxOramIndex + 1 →
      ∃ out enc', generateORAMIndexes excluded enc tuples = (.ok out, enc')) ∧
    (∀ out enc', generateORAMIndexes excluded enc tuples = (.ok out, enc') →
      out.length = tuples.length ∧
      ∀ (k : Nat) (t : BreakdownTuple), tuples[k]? = some t →
        out[k]? = resolvedIndex excluded enc' t) := by
  refine ⟨?_, ?_, ?_⟩
  · cases enc with
    | mk arity table =>
      cases arity <;> simp [generateORAMIndexes, resolveAll, establishedArity]
  · intro harity hcap
    rcases generateORAMIndexes_cases excluded enc tuples with ⟨⟨t, ht, hne⟩, _⟩ | ⟨_, hgood⟩
    · exact absurd (harity t ht) hne
    · obtain ⟨out, hout⟩ := resolveAll_returns excluded tuples enc.table hcap
      exact ⟨out, _, by rw [hgood, hout]⟩
  · intro out enc' h
    obtain ⟨_, hres, henc⟩ := generateORAMIndexes_ok excluded enc enc' tuples out h
    obtain ⟨hlen, hidx⟩ := resolveAll_ok excluded tuples enc.table out hres
    refine ⟨hlen, ?_⟩
    intro k t hk
    rw [hidx k t hk, henc]
    rfl

/-- The theorem C4 on scenario 1 of the specification: `[[1,2],[3,4],[1,2]]` returns
`[1,2,1]`, of the same length, each index being the one resolved for the tuple at its
position. -/
theorem generateORAMIndexes_order_preservation_witness :
    generateORAMIndexes allZero Encoder.empty [[1, 2], [3, 4], [1, 2]] =
        (.ok [1, 2, 1], ⟨some 2, ⟨[([1, 2], 1), ([3, 4], 2)], 3⟩⟩) ∧
      [1, 2, 1].length = [[1, 2], [3, 4], [1, 2]].length ∧
      ∀ (k : Nat) (t : BreakdownTuple), [[1, 2], [3, 4], [1, 2]][k]? = some t →
        [1, 2, 1][k]? = resolvedIndex allZero ⟨some 2, ⟨[([1, 2], 1), ([3, 4], 2)], 3⟩⟩ t :=
  ⟨by decide,
    (generateORAMIndexes_order_preservation allZero Encoder.empty
      [[1, 2], [3, 4], [1, 2]]).2.2 [1, 2, 1] ⟨some 2, ⟨[([1, 2], 1), ([3, 4], 2)], 3⟩⟩
      (by decide)⟩

/-! ### The table invariant -/

theorem wellFormed_empty (excluded : BreakdownTuple → Bool) :
    MappingTable.WellFormed excluded Encoder.empty.table :=
  ⟨rfl, by intro j key i h; simp [Encoder.empty] at h, by simp [Encoder.empty],
    by intro p hp; simp [Encoder.empty] at hp⟩

theorem resolve_wellFormed (excluded : BreakdownTuple → Bool) (table table1 : MappingTable)
    (t : BreakdownTuple) (i : Nat) (hwf : MappingTable.WellFormed excluded table)
    (hex : excluded t = false) (h : table.resolve (canonicalKey t) = .ok (i, table1)) :
    MappingTable.WellFormed excluded table1 := by
  rcases resolve_ok table table1 _ i h with ⟨_, rfl⟩ | ⟨hl, _, _, rfl⟩
  · exact hwf
  · refine ⟨by simp [hwf.counter_eq], ?_, ?_, ?_⟩
    · intro j key i' hj
      simp only [List.getElem?_append] at hj
      by_cases hlt : j < table.entries.length
      · simp only [if_pos hlt] at hj
        exact hwf.index_eq j key i' hj
      · simp only [if_neg hlt] at hj
        obtain ⟨hlt', heq⟩ := List.getElem?_eq_some.mp hj
        simp only [List.length_singleton] at hlt'
        have hj0 : j - table.entries.length = 0 := by omega
        simp only [hj0, List.getElem_cons_zero, Prod.mk.injEq] at heq
        rw [← heq.2, hwf.counter_eq]
        omega
    · simp only [List.map_append, List.map_cons, List.map_nil]
      rw [List.nodup_append]
      refine ⟨hwf.keys_nodup, by simp, ?_⟩
      intro k hk1 hk2
      rw [List.mem_singleton.mp hk2] at hk1
      exact lookup_eq_none _ _ hl hk1
    · intro p hp
      rcases List.mem_append.mp hp with hp | hp
      · exact hwf.not_excluded p hp
      · rw [List.mem_singleton.mp hp]
        exact hex

theorem resolveAll_wellFormed (excluded : BreakdownTuple → Bool) :
    ∀ (tuples : List BreakdownTuple) (table : MappingTable),
      MappingTable.WellFormed excluded table →
      MappingTable.WellFormed excluded (resolveAll excluded tuples table).2 := by
  intro tuples
  induction tuples with
  | nil => intro table h; simpa [resolveAll] using h
  | cons t rest ih =>
    intro table h
    by_cases hex : excluded t = true
    · simp only [resolveAll, if_pos hex]
      exact ih table h
    · simp only [resolveAll, if_neg hex]
      cases hr : table.resolve (canonicalKey t) with
      | error e => simpa using h
      | ok p =>
        obtain ⟨j, table1⟩ := p
        simp only []
        exact ih table1 (resolve_wellFormed excluded table table1 t j h (by simpa using hex) hr)

theorem generateORAMIndexes_wellFormed (excluded : BreakdownTuple → Bool) (enc : Encoder)
    (tuples : List BreakdownTuple) (h : MappingTable.WellFormed excluded enc.table) :
    MappingTable.WellFormed excluded (generateORAMIndexes excluded enc tuples).2.table := by
  rcases generateORAMIndexes_cases excluded enc tuples with ⟨_, hbad⟩ | ⟨_, hgood⟩
  · rw [hbad]
    exact h
  · rw [hgood]
    exact resolveAll_wellFormed excluded tuples enc.table h

theorem runCalls_wellFormed (excluded : BreakdownTuple → Bool) :
    ∀ (calls : List (List BreakdownTuple)) (enc : Encoder),
      MappingTable.WellFormed excluded enc.table →
      MappingTable.WellFormed excluded (runCalls excluded enc calls).table := by
  intro calls
  induction calls with
  | nil => intro enc h; exact h
  | cons tuples later ih =>
    intro enc h
    exact ih _ (generateORAMIndexes_wellFormed excluded enc tuples h)

theorem lookup_position (excluded : BreakdownTuple → Bool) (table : MappingTable)
    (hwf : MappingTable.WellFormed excluded table) (key : CanonicalKey) (i : Nat)
    (h : MappingTable.lookup key table.entries = some i) :
    ∃ j, table.entries[j]? = some (key, i) ∧ i = j + 1 := by
  obtain ⟨j, hj⟩ := List.mem_iff_getElem?.mp (mem_of_lookup key i table.entries h)
  exact ⟨j, hj, hwf.index_eq j key i hj⟩

theorem lookup_injective (excluded : BreakdownTuple → Bool) (table : MappingTable)
    (hwf : MappingTable.WellFormed excluded table) (key1 key2 : CanonicalKey) (i : Nat)
    (h1 : MappingTable.lookup key1 table.entries = some i)
    (h2 : MappingTable.lookup key2 table.entries = some i) : key1 = key2 := by
  obtain ⟨j1, hj1, e1⟩ := lookup_position excluded table hwf key1 i h1
  obtain ⟨j2, hj2, e2⟩ := lookup_position excluded table hwf key2 i h2
  have : j1 = j2 := by omega
  subst this
  rw [hj1] at hj2
  simp only [Option.some.injEq, Prod.mk.injEq] at hj2
  exact hj2.1

theorem resolveAll_entries_subset (excluded : BreakdownTuple → Bool) :
    ∀ (tuples : List BreakdownTuple) (table : MappingTable),
      ∀ p ∈ (resolveAll excluded tuples table).2.entries, p ∈ table.entries ∨ p.1 ∈ tuples := by
  intro tuples
  induction tuples with
  | nil => intro table p hp; exact Or.inl (by simpa [resolveAll] using hp)
  | cons t rest ih =>
    intro table p hp
    by_cases hex : excluded t = true
    · simp only [resolveAll, if_pos hex] at hp
      rcases ih table p hp with h | h
      · exact Or.inl h
      · exact Or.inr (List.mem_cons_of_mem _ h)
    · simp only [resolveAll, if_neg hex] at hp
      cases hr : table.resolve (canonicalKey t) with
      | error e =>
        simp only [hr] at hp
        exact Or.inl hp
      | ok q =>
        obtain ⟨j, table1⟩ := q
        simp only [hr] at hp
        rcases ih table1 p hp with h | h
        · rcases resolve_ok table table1 _ j hr with ⟨_, rfl⟩ | ⟨_, _, _, rfl⟩
          · exact Or.inl h
          · rcases List.mem_append.mp h with h | h
            · exact Or.inl h
            · rw [List.mem_singleton.mp h]
              exact Or.inr (by simp [canonicalKey])
        · exact Or.inr (List.mem_cons_of_mem _ h)

theorem generateORAMIndexes_entries_arity (excluded : BreakdownTuple → Bool) (enc : Encoder)
    (tuples : List BreakdownTuple)
    (h : ∀ p ∈ enc.table.entries, enc.arity = some p.1.length) :
    ∀ p ∈ (generateORAMIndexes excluded enc tuples).2.table.entries,
      (generateORAMIndexes excluded enc tuples).2.arity = some p.1.length := by
  rcases generateORAMIndexes_cases excluded enc tuples with ⟨_, hbad⟩ | ⟨harity, hgood⟩
  · rw [hbad]
    exact h
  · rw [hgood]
    intro p hp
    rcases resolveAll_entries_subset excluded tuples enc.table p hp with hp | hp
    · exact establishedArity_of_some enc tuples _ (h p hp)
    · exact harity p.1 hp

theorem runCalls_entries_arity (excluded : BreakdownTuple → Bool) :
    ∀ (calls : List (List BreakdownTuple)) (enc : Encoder),
      (∀ p ∈ enc.table.entries, enc.arity = some p.1.length) →
      ∀ p ∈ (runCalls excluded enc calls).table.entries,
        (runCalls excluded enc calls).arity = some p.1.length := by
  intro calls
  induction calls with
  | nil => intro enc h; exact h
  | cons tuples later ih =>
    intro enc h
    exact ih _ (generateORAMIndexes_entries_arity excluded enc tuples h)

/-- C1: a tuple `t` that was assigned the index `i` in the history `earlier` (some call
returned `i` for it, or the pair is stored in the table) is resolved to `[i]`, without
changing the encoder, by a call `generateORAMIndexes([t])` issued after any further calls
`later`, failed ones included. -/
theorem generateORAMIndexes_referential_stability (excluded : BreakdownTuple → Bool)
    (earlier later : List (List BreakdownTuple)) (t : BreakdownTuple) (i : Nat)
    (h : (t, i) ∈ returnedPairs excluded Encoder.empty earlier ∨
      (t, i) ∈ (runCalls excluded Encoder.empty earlier).table.entries) :
    generateORAMIndexes excluded (runCalls excluded Encoder.empty (earlier ++ later)) [t] =
      (.ok [i], runCalls excluded Encoder.empty (earlier ++ later)) := by
  apply generateORAMIndexes_singleton
  rw [runCalls_append]
  apply runCalls_persist excluded t i later
  rcases h with h | h
  · exact returnedPairs_persist excluded t i earlier Encoder.empty h
  · have hwf := runCalls_wellFormed excluded earlier Encoder.empty (wellFormed_empty excluded)
    refine ⟨runCalls_entries_arity excluded earlier Encoder.empty
      (by intro p hp; simp [Encoder.empty] at hp) (t, i) h, ?_⟩
    have hex : excluded t = false := hwf.not_excluded (t, i) h
    simp only [resolvedIndex, hex, Bool.false_eq_true, if_false]
    exact lookup_of_mem _ i _ hwf.keys_nodup h

/-- The theorem C1 on scenarios 1 and 3 of the specification: `[1,2]` was given index 1 by
the first call and keeps it after the call `[[3,4],[7,8]]`, which returns `[2,3]`. -/
theorem generateORAMIndexes_referential_stability_witness :
    ([1, 2], 1) ∈ returnedPairs allZero Encoder.empty [[[1, 2], [3, 4], [1, 2]]] ∧
      (generateORAMIndexes allZero Encoder.empty [[1, 2], [3, 4], [1, 2]]).1 = .ok [1, 2, 1] ∧
      (generateORAMIndexes allZero (runCalls allZero Encoder.empty [[[1, 2], [3, 4], [1, 2]]])
        [[3, 4], [7, 8]]).1 = .ok [2, 3] ∧
      generateORAMIndexes allZero
          (runCalls allZero Encoder.empty ([[[1, 2], [3, 4], [1, 2]]] ++ [[[3, 4], [7, 8]]]))
          [[1, 2]] =
        (.ok [1],
          runCalls allZero Encoder.empty ([[[1, 2], [3, 4], [1, 2]]] ++ [[[3, 4], [7, 8]]])) :=
  ⟨by decide, by decide, by decide,
    generateORAMIndexes_referential_stability allZero [[[1, 2], [3, 4], [1, 2]]]
      [[[3, 4], [7, 8]]] [1, 2] 1 (Or.inl (by decide))⟩

/-- C2: over any sequence of calls on one encoder, two different non-excluded tuples for
which indices were returned (in the same call or in different calls) were given different
indices. -/
theorem generateORAMIndexes_injective (excluded : BreakdownTuple → Bool)
    (calls : List (List BreakdownTuple)) (t1 t2 : BreakdownTuple) (i1 i2 : Nat)
    (h1 : (t1, i1) ∈ returnedPairs excluded Encoder.empty calls)
    (h2 : (t2, i2) ∈ returnedPairs excluded Encoder.empty calls)
    (hex1 : excluded t1 = false) (hex2 : excluded t2 = false) (hne : t1 ≠ t2) : i1 ≠ i2 := by
  intro heq
  subst heq
  have p1 := (returnedPairs_persist excluded t1 i1 calls Encoder.empty h1).2
  have p2 := (returnedPairs_persist excluded t2 i1 calls Encoder.empty h2).2
  simp only [resolvedIndex, hex1, hex2, Bool.false_eq_true, if_false] at p1 p2
  exact hne (lookup_injective excluded _
    (runCalls_wellFormed excluded calls Encoder.empty (wellFormed_empty excluded)) _ _ i1 p1 p2)

/-- The theorem C2 on scenarios 1 and 3 of the specification: `[1,2]`, returned index 1 by
the first call, and `[7,8]`, returned index 3 by the second call. -/
theorem generateORAMIndexes_injective_witness :
    ([1, 2], 1) ∈ returnedPairs allZero Encoder.empty
        [[[1, 2], [3, 4], [1, 2]], [[3, 4], [7, 8]]] ∧
      ([7, 8], 3) ∈ returnedPairs allZero Encoder.empty
        [[[1, 2], [3, 4], [1, 2]], [[3, 4], [7, 8]]] ∧
      allZero [1, 2] = false ∧ allZero [7, 8] = false ∧ ([1, 2] : BreakdownTuple) ≠ [7, 8] ∧
      (1 : Nat) ≠ 3 :=
  ⟨by decide, by decide, by decide, by decide, by decide,
    generateORAMIndexes_injective allZero [[[1, 2], [3, 4], [1, 2]], [[3, 4], [7, 8]]]
      [1, 2] [7, 8] 1 3 (by decide) (by decide) (by decide) (by decide) (by decide)⟩

/-- C3: on an encoder reached by any sequence of calls, a batch that returns has an output
of the length of the input, and the index at position `k` is 0 exactly when the tuple at
position `k` is excluded. -/
theorem generateORAMIndexes_sentinel (excluded : BreakdownTuple → Bool)
    (calls : List (List BreakdownTuple)) (tuples : List BreakdownTuple) (out : List Nat)
    (enc' : Encoder)
    (h : generateORAMIndexes excluded (runCalls excluded Encoder.empty calls) tuples =
      (.ok out, enc')) :
    out.length = tuples.length ∧
    ∀ (k : Nat) (t : BreakdownTuple), tuples[k]? = some t →
      ∃ i, out[k]? = some i ∧ (i = 0 ↔ excluded t = true) := by
  obtain ⟨_, hres, henc⟩ := generateORAMIndexes_ok excluded _ enc' tuples out h
  obtain ⟨hlen, hidx⟩ := resolveAll_ok excluded tuples _ out hres
  have hwf := resolveAll_wellFormed excluded tuples _
    (runCalls_wellFormed excluded calls Encoder.empty (wellFormed_empty excluded))
  refine ⟨hlen, ?_⟩
  intro k t hk
  have hk' := hidx k t hk
  by_cases hex : excluded t = true
  · rw [if_pos hex] at hk'
    exact ⟨0, hk', by simp [hex]⟩
  · rw [if_neg hex] at hk'
    have hlt : k < out.length := by
      rw [hlen]
      exact (List.getElem?_eq_some.mp hk).1
    refine ⟨out[k], List.getElem?_eq_getElem hlt, ?_⟩
    rw [List.getElem?_eq_getElem hlt] at hk'
    obtain ⟨j, _, hj⟩ := lookup_position excluded _ hwf _ _ hk'.symm
    constructor
    · intro h0
      omega
    · intro h1
      exact absurd h1 hex

/-- The theorem C3 on scenario 2 of the specification: `[[0,0],[5,6]]` with `[0,0]` excluded
returns `[0,1]`. -/
theorem generateORAMIndexes_sentinel_witness :
    generateORAMIndexes allZero (runCalls allZero Encoder.empty []) [[0, 0], [5, 6]] =
        (.ok [0, 1], ⟨some 2, ⟨[([5, 6], 1)], 2⟩⟩) ∧
      [0, 1].length = [[0, 0], [5, 6]].length ∧
      ∀ (k : Nat) (t : BreakdownTuple), [[0, 0], [5, 6]][k]? = some t →
        ∃ i, [0, 1][k]? = some i ∧ (i = 0 ↔ allZero t = true) :=
  ⟨by decide,
    generateORAMIndexes_sentinel allZero [] [[0, 0], [5, 6]] [0, 1]
      ⟨some 2, ⟨[([5, 6], 1)], 2⟩⟩ (by decide)⟩

/-! ### Export -/

end fbpcf.mpc_std_lib.oram
